import Mathlib

/-!
Verification development for the AI-visibility analysis pipeline.

The definitions below are a shallow embedding of the pipeline's JavaScript
source (`geminiService.js` and `analysisRunner.js`): strings are modelled as
`List Char` (JavaScript strings indexed by code unit), JavaScript numbers
used for scores/percentages are modelled as `ℚ`, nullable values as
`Option`, thrown exceptions as `Except String`, and the persistence layer as
explicit state record passing (writes are modelled as total; wall-clock
timing fields and the inter-request pacing delay are not modelled).
-/

namespace AIVis

/-- Word characters as in the ECMAScript regex class `\w` = `[A-Za-z0-9_]`,
which governs the `\b` word-boundary assertions used for brand matching. -/
def isWordChar (c : Char) : Bool :=
  c.isAlphanum || c = '_'

/-- Lower-casing of a string, modelling `String.prototype.toLowerCase` on the
ASCII range (`Char.toLower` maps `A`–`Z` to `a`–`z` and fixes the rest). -/
def toLowerStr (s : List Char) : List Char :=
  s.map Char.toLower

/-- Case-insensitive prefix test: the first argument is a prefix of the
second up to `Char.toLower`.  This implements matching of a regex-escaped
(hence literal) brand name under the `i` flag. -/
def ciStartsWith : List Char → List Char → Bool
  | [], _ => true
  | _ :: _, [] => false
  | c :: cs, d :: ds => (c.toLower == d.toLower) && ciStartsWith cs ds

/-- Case-sensitive prefix test on character lists. -/
def listStartsWith : List Char → List Char → Bool
  | [], _ => true
  | _ :: _, [] => false
  | c :: cs, d :: ds => (c == d) && listStartsWith cs ds

/-- Substring containment, modelling `String.prototype.includes`. -/
def containsSub : List Char → List Char → Bool
  | s, pat =>
    listStartsWith pat s ||
      match s with
      | [] => false
      | _ :: rest => containsSub rest pat

/-- Whitespace trimming from both ends, modelling `String.prototype.trim`. -/
def trimList (s : List Char) : List Char :=
  ((s.dropWhile Char.isWhitespace).reverse.dropWhile Char.isWhitespace).reverse

/-- Substring by index range, modelling `text.slice(start, stop)` for
`0 ≤ start ≤ stop` (the clipping `Math.min(text.length, stop)` is implicit
in `List.take`). -/
def sliceList (s : List Char) (start stop : Nat) : List Char :=
  (s.drop start).take (stop - start)

/-- Whether the character at index `i` of `text` is a word character
(out-of-range indices count as non-word, as in ECMAScript `\b`). -/
def wordAt (text : List Char) (i : Nat) : Bool :=
  match text[i]? with
  | some c => isWordChar c
  | none => false

/-- ECMAScript word-boundary assertion `\b` at position `i` of `text`:
holds when exactly one of the two adjacent characters is a word character. -/
def hasBoundary (text : List Char) (i : Nat) : Bool :=
  (if i = 0 then false else wordAt text (i - 1)) != wordAt text i

/-- A whole-word, case-insensitive match of `brand` at index `i` of `text`:
the semantics of the pattern `` `\b${escapeRegex(brand)}\b` `` with flag `i`
(escaping makes the brand a literal, so the pattern reduces to a literal
case-insensitive occurrence flanked by word boundaries). -/
def wholeWordAt (text brand : List Char) (i : Nat) : Bool :=
  ciStartsWith brand (text.drop i) && hasBoundary text i &&
    hasBoundary text (i + brand.length)

/-- Fuel-driven scan for the least match index `≥ start`; fuel
`text.length + 1 - start` suffices since matches start at indices
`≤ text.length`. -/
def firstMatchAux (text brand : List Char) : Nat → Nat → Option Nat
  | 0, _ => none
  | fuel + 1, start =>
    if wholeWordAt text brand start then some start
    else firstMatchAux text brand fuel (start + 1)

/-- Least whole-word match index `≥ start`, modelling the regex engine's
search from `lastIndex = start`. -/
def firstMatchFrom (text brand : List Char) (start : Nat) : Option Nat :=
  firstMatchAux text brand (text.length + 1 - start) start

/-- Index of the first whole-word match of `brand` in `text`, modelling
`text.match(regex)?.index` for the non-global brand regex. -/
def firstWholeWordMatch (text brand : List Char) : Option Nat :=
  firstMatchFrom text brand 0

/-- Successive match start indices, modelling the iteration of
`text.matchAll(regex)` with the `g` flag: after a match at `i` the scan
resumes at `i + max(length, 1)` (the engine advances by one position past a
zero-length match). -/
def matchAllAux (text brand : List Char) : Nat → Nat → List Nat
  | 0, _ => []
  | fuel + 1, start =>
    match firstMatchFrom text brand start with
    | none => []
    | some i => i :: matchAllAux text brand fuel (i + max brand.length 1)

/-- Start indices of all non-overlapping whole-word matches of `brand` in
`text`, modelling `[...text.matchAll(regex)].map(m => m.index)`. -/
def matchAllIndices (text brand : List Char) : List Nat :=
  matchAllAux text brand (text.length + 1) 0

/-- Sentiment classification labels, stored as the strings `positive`,
`neutral`, `negative` in the database. -/
inductive SentimentLabel where
  | positive
  | neutral
  | negative
deriving DecidableEq, Repr

/-- Result of `GeminiService.analyzeSentiment`. -/
structure SentimentResult where
  sentiment : SentimentLabel
  score : ℚ
deriving DecidableEq, Repr

/-- Positive sentiment lexicon of `GeminiService.analyzeSentiment`,
transcribed verbatim from the source. -/
def positivePatterns : List (List Char) :=
  ["best", "excellent", "great", "recommended", "leading", "top",
   "powerful", "popular", "reliable", "trusted", "innovative",
   "easy to use", "intuitive", "robust", "comprehensive", "outstanding",
   "impressive", "exceptional", "superior", "favorite", "preferred",
   "highly rated", "well-known", "industry leader", "market leader",
   "stands out", "excels", "shines", "ideal", "perfect for"].map String.toList

/-- Negative sentiment lexicon of `GeminiService.analyzeSentiment`,
transcribed verbatim from the source. -/
def negativePatterns : List (List Char) :=
  ["expensive", "complex", "difficult", "limited", "lacking",
   "poor", "slow", "outdated", "complicated", "overpriced",
   "basic", "frustrating", "clunky", "steep learning curve",
   "confusing", "unreliable", "disappointing", "worst", "avoid",
   "issues", "problems", "bugs", "crashes", "not recommended"].map String.toList

/-- Clamp to an interval, modelling `Math.max(lo, Math.min(hi, x))`. -/
def clampQ (lo hi x : ℚ) : ℚ :=
  max lo (min hi x)

/-- Shallow embedding of `GeminiService.analyzeSentiment(context, brand)`:
accumulates `score`, `matchedPositive`, `matchedNegative` over the two
lexicons by substring search in the lower-cased context, then normalizes
`score / Math.max(matchedPositive, matchedNegative, 1)` clamped to
`[-1, 1]` (score `0` if there is no match at all) and classifies with the
`0.2` thresholds.  Number arithmetic is modelled exactly over `ℚ`; the
`brand` argument is unused by the source as well. -/
def analyzeSentiment (context _brand : List Char) : SentimentResult :=
  let lowerContext := toLowerStr context
  let pos := positivePatterns.foldl
    (fun (acc : Int × Nat) pat =>
      if containsSub lowerContext pat then (acc.1 + 1, acc.2 + 1) else acc)
    ((0 : Int), (0 : Nat))
  let neg := negativePatterns.foldl
    (fun (acc : Int × Nat) pat =>
      if containsSub lowerContext pat then (acc.1 - 1, acc.2 + 1) else acc)
    ((pos.1, (0 : Nat)))
  let score : Int := neg.1
  let matchedPositive : Nat := pos.2
  let matchedNegative : Nat := neg.2
  let totalMatches := matchedPositive + matchedNegative
  let normalizedScore : ℚ :=
    if 0 < totalMatches then
      clampQ (-1) 1
        ((score : ℚ) / ((max matchedPositive (max matchedNegative 1) : Nat) : ℚ))
    else 0
  let sentiment :=
    if (1 : ℚ)/5 < normalizedScore then SentimentLabel.positive
    else if normalizedScore < -((1 : ℚ)/5) then SentimentLabel.negative
    else SentimentLabel.neutral
  ⟨sentiment, normalizedScore⟩

/-- Abstract syntax of the fragment of ECMAScript regular expressions that
`GeminiService.checkIfRecommended` can produce (its fixed phrase templates
contribute only literal characters and `.*`; everything else can enter only
through the raw, unescaped brand name). -/
inductive RegexAst where
  | eps
  | lit (c : Char)
  | dot
  | cls (negated : Bool) (singles : List Char) (ranges : List (Char × Char))
  | anchorBegin
  | anchorEnd
  | seq (a b : RegexAst)
  | alt (a b : RegexAst)
  | star (a : RegexAst)
deriving DecidableEq, Repr

/-- Structural size of a regex AST, used to bound the matcher's recursion. -/
def RegexAst.size : RegexAst → Nat
  | .eps | .lit _ | .dot | .cls _ _ _ | .anchorBegin | .anchorEnd => 1
  | .seq a b => a.size + b.size + 1
  | .alt a b => a.size + b.size + 1
  | .star a => a.size + 1

/-- Parse a character-class body after `[`, up to the closing `]`; returns
the parsed class and the remaining input, or `none` for an unterminated
class (a SyntaxError in ECMAScript).  Supports negation, `\`-escaped
members and `a-z` ranges. -/
def parseClassBody (fuel : Nat) (s : List Char) (negated : Bool)
    (singles : List Char) (ranges : List (Char × Char)) :
    Option (RegexAst × List Char) :=
  match fuel, s with
  | 0, _ => none
  | _, [] => none
  | _ + 1, ']' :: rest => some (.cls negated singles ranges, rest)
  | fuel + 1, '\\' :: s' =>
    match s' with
    | [] => none
    | c :: rest => parseClassBody fuel rest negated (c :: singles) ranges
  | fuel + 1, c :: s' =>
    match s' with
    | '-' :: d :: rest =>
      if d = ']' then parseClassBody fuel ('-' :: d :: rest) negated (c :: singles) ranges
      else parseClassBody fuel rest negated singles ((c, d) :: ranges)
    | _ => parseClassBody fuel s' negated (c :: singles) ranges

/-- Parse one quantifiable atom.  A quantifier character with nothing to
repeat, a dangling escape, an unterminated class or group are parse
failures, modelling the SyntaxError thrown by `new RegExp(...)`.  Identity
escapes are used for `\c` (character-class shorthands are out of scope for
the patterns at hand), and `{`, `}`, a leading `]` are literals as in the
Annex B grammar. -/
def parseAtom (parseA : List Char → Option (RegexAst × List Char)) :
    List Char → Option (RegexAst × List Char)
  | [] => none
  | '(' :: rest =>
    match parseA rest with
    | some (a, ')' :: rest') => some (a, rest')
    | _ => none
  | ')' :: _ => none
  | '[' :: rest =>
    match rest with
    | '^' :: rest' => parseClassBody (rest'.length + 1) rest' true [] []
    | _ => parseClassBody (rest.length + 1) rest false [] []
  | '\\' :: rest =>
    match rest with
    | [] => none
    | c :: rest' => some (.lit c, rest')
  | '*' :: _ => none
  | '+' :: _ => none
  | '?' :: _ => none
  | '|' :: _ => none
  | '.' :: rest => some (.dot, rest)
  | '^' :: rest => some (.anchorBegin, rest)
  | '$' :: rest => some (.anchorEnd, rest)
  | c :: rest => some (.lit c, rest)

/-- Apply an optional postfix quantifier to a parsed atom: `*`, `+` and `?`
(with `x+ = x x*` and `x? = x | ε`). -/
def applyQuantifier (a : RegexAst) : List Char → RegexAst × List Char
  | '*' :: rest => (.star a, rest)
  | '+' :: rest => (.seq a (.star a), rest)
  | '?' :: rest => (.alt a .eps, rest)
  | rest => (a, rest)

/-- Parse a concatenation of quantified atoms, stopping at `|`, `)` or the
end of input. -/
def parseSeqFuel (parseA : List Char → Option (RegexAst × List Char)) :
    Nat → List Char → Option (RegexAst × List Char)
  | _, [] => some (.eps, [])
  | _, ')' :: rest => some (.eps, ')' :: rest)
  | _, '|' :: rest => some (.eps, '|' :: rest)
  | 0, _ => none
  | fuel + 1, s =>
    match parseAtom parseA s with
    | none => none
    | some (a, rest) =>
      let q := applyQuantifier a rest
      match parseSeqFuel parseA fuel q.2 with
      | none => none
      | some (b, rest') => some (.seq q.1 b, rest')

/-- Parse an alternation (`|`-separated concatenations). -/
def parseAltFuel : Nat → List Char → Option (RegexAst × List Char)
  | 0, _ => none
  | fuel + 1, s =>
    match parseSeqFuel (parseAltFuel fuel) (s.length + 1) s with
    | none => none
    | some (a, '|' :: rest) =>
      match parseAltFuel fuel rest with
      | none => none
      | some (b, rest') => some (.alt a b, rest')
    | some (a, rest) => some (a, rest)

/-- Compile a pattern string to an AST, modelling `new RegExp(pattern, 'i')`:
`none` models the thrown SyntaxError (unbalanced `(` or `)`, a quantifier
with nothing to repeat, an unterminated class, a dangling `\`). -/
def compileRegex (pattern : List Char) : Option RegexAst :=
  match parseAltFuel (pattern.length + 1) pattern with
  | some (a, []) => some a
  | _ => none

/-- Case-insensitive membership test for a character class. -/
def clsMember (negated : Bool) (singles : List Char) (ranges : List (Char × Char))
    (c : Char) : Bool :=
  let raw := singles.any (fun s => s.toLower == c.toLower) ||
    ranges.any (fun r => (r.1 ≤ c ∧ c ≤ r.2) ∨ (r.1 ≤ c.toLower ∧ c.toLower ≤ r.2))
  if negated then !raw else raw

/-- Backtracking matcher: the list of end positions of matches of `a`
starting at index `i` of `text`, under the `i` flag.  `star` refuses
empty-progress iterations, as the ECMAScript engine does; `fuel` bounds the
recursion depth and `(a.size + 1) * (text.length + 2)` always suffices. -/
def rxMatch (text : List Char) : Nat → RegexAst → Nat → List Nat
  | 0, _, _ => []
  | _ + 1, .eps, i => [i]
  | _ + 1, .lit c, i =>
    match text[i]? with
    | some d => if d.toLower == c.toLower then [i + 1] else []
    | none => []
  | _ + 1, .dot, i =>
    match text[i]? with
    | some d => if d ≠ '\n' ∧ d ≠ '\r' then [i + 1] else []
    | none => []
  | _ + 1, .cls neg singles ranges, i =>
    match text[i]? with
    | some d => if clsMember neg singles ranges d then [i + 1] else []
    | none => []
  | _ + 1, .anchorBegin, i => if i = 0 then [i] else []
  | _ + 1, .anchorEnd, i => if i = text.length then [i] else []
  | fuel + 1, .seq a b, i =>
    (rxMatch text fuel a i).flatMap (fun j => rxMatch text fuel b j)
  | fuel + 1, .alt a b, i =>
    rxMatch text fuel a i ++ rxMatch text fuel b i
  | fuel + 1, .star a, i =>
    i :: (rxMatch text fuel a i).flatMap
      (fun j => if i < j ∧ j ≤ text.length then rxMatch text fuel (.star a) j else [])

/-- Whether the compiled regex matches anywhere in `text`, modelling
`regex.test(text)`. -/
def rxTest (a : RegexAst) (text : List Char) : Bool :=
  (List.range (text.length + 1)).any
    (fun i => !(rxMatch text ((a.size + 1) * (text.length + 2)) a i).isEmpty)

/-- The eleven recommendation phrase templates of
`GeminiService.checkIfRecommended`, instantiated with the lower-cased brand
name spliced in verbatim — without `escapeRegex`. -/
def recommendPatterns (lowerBrand : List Char) : List (List Char) :=
  ["recommend ".toList ++ lowerBrand,
   lowerBrand ++ " is recommended".toList,
   "suggest ".toList ++ lowerBrand,
   lowerBrand ++ " is a great choice".toList,
   lowerBrand ++ " is ideal".toList,
   lowerBrand ++ " is perfect".toList,
   lowerBrand ++ " is the best".toList,
   "top pick.*".toList ++ lowerBrand,
   lowerBrand ++ ".*top pick".toList,
   "best.*".toList ++ lowerBrand,
   lowerBrand ++ ".*stands out".toList]

/-- Short-circuiting `Array.prototype.some` over the patterns: compiling
each pattern may throw (modelled as `Except.error`); a pattern that
compiles and matches stops the scan with `true`. -/
def recommendSome (lowerText : List Char) : List (List Char) → Except String Bool
  | [] => .ok false
  | p :: ps =>
    match compileRegex p with
    | none => .error "Invalid regular expression"
    | some a => if rxTest a lowerText then .ok true else recommendSome lowerText ps

/-- Shallow embedding of `GeminiService.checkIfRecommended(text, brand)`:
tests the lower-cased response text against the recommendation patterns
built from the raw lower-cased brand name.  A brand name that makes a
pattern an invalid regex makes the call throw. -/
def checkIfRecommended (text brand : List Char) : Except String Bool :=
  recommendSome (toLowerStr text) (recommendPatterns (toLowerStr brand))

/-- One record of `GeminiService.extractBrandMentions`' result array.  The
unmentioned record of the source carries `position: null`, `context: null`,
`sentiment: null`, `sentimentScore: null`, `isRecommended: false`,
`count: 0`. -/
structure Mention where
  brand : List Char
  mentioned : Bool
  count : Nat
  position : Option Nat
  context : Option (List Char)
  sentiment : Option SentimentLabel
  sentimentScore : Option ℚ
  isRecommended : Bool
deriving DecidableEq, Repr

/-- First-pass entry of `extractBrandMentions`: a brand together with the
index of its first match (entries with no match, `firstIndex === -1` in the
source, are filtered out before sorting). -/
structure BrandPos where
  brand : List Char
  firstIndex : Nat
deriving DecidableEq, Repr

/-- The first pass of `extractBrandMentions` before sorting: map each brand
to its first-match index and keep the matched ones (the source uses the
sentinel `-1` and `filter`; `Option` plays the sentinel here). -/
def brandFirstPositions (text : List Char) (brands : List (List Char)) :
    List BrandPos :=
  brands.filterMap (fun b => (firstWholeWordMatch text b).map (fun i => ⟨b, i⟩))

/-- Stable insertion of an entry into a list sorted by `firstIndex`. -/
def insertByFirstIndex (e : BrandPos) : List BrandPos → List BrandPos
  | [] => [e]
  | f :: fs =>
    if e.firstIndex ≤ f.firstIndex then e :: f :: fs
    else f :: insertByFirstIndex e fs

/-- Stable sort by ascending `firstIndex`, modelling
`.sort((a, b) => a.firstIndex - b.firstIndex)` (ECMAScript `Array.prototype.sort`
is stable). -/
def sortByFirstIndex : List BrandPos → List BrandPos
  | [] => []
  | e :: es => insertByFirstIndex e (sortByFirstIndex es)

/-- The sorted first-pass list of `extractBrandMentions`. -/
def sortedBrandPositions (text : List Char) (brands : List (List Char)) :
    List BrandPos :=
  sortByFirstIndex (brandFirstPositions text brands)

/-- Lookup in the `positionMap` object built by
`brandPositions.forEach((item, index) => positionMap[item.brand] = index + 1)`:
property assignment means the last entry for a given brand name wins. -/
def posMapAux : Nat → List BrandPos → List Char → Option Nat
  | _, [], _ => none
  | i, e :: es, b =>
    match posMapAux (i + 1) es b with
    | some r => some r
    | none => if e.brand = b then some (i + 1) else none

/-- Position of a brand according to the sorted first-pass list (1-based
rank), modelling `positionMap[brand] || null` (ranks are always `≥ 1`, so
the `|| null` coalescing never rewrites a present rank). -/
def positionMapLookup (l : List BrandPos) (b : List Char) : Option Nat :=
  posMapAux 0 l b

/-- The record `extractBrandMentions` pushes for a brand with no match. -/
def unmentionedRecord (brand : List Char) : Mention :=
  ⟨brand, false, 0, none, none, none, none, false⟩

/-- Second-pass body of `extractBrandMentions` for one brand: count the
matches, build the trimmed 150-character context window around the first
match, score its sentiment and test the recommendation patterns (which may
throw). -/
def mkMention (text : List Char) (posMap : List BrandPos) (brand : List Char) :
    Except String Mention :=
  match matchAllIndices text brand with
  | [] => .ok (unmentionedRecord brand)
  | i0 :: rest =>
    let contextStart := i0 - 150
    let contextStop := min text.length (i0 + brand.length + 150)
    let context := trimList (sliceList text contextStart contextStop)
    let sentimentResult := analyzeSentiment context brand
    match checkIfRecommended text brand with
    | .error e => .error e
    | .ok isRecommended =>
      .ok ⟨brand, true, (i0 :: rest).length, positionMapLookup posMap brand,
        some context, some sentimentResult.sentiment,
        some sentimentResult.score, isRecommended⟩

/-- The second-pass loop over all brands; a thrown recommendation-pattern
SyntaxError aborts the whole extraction. -/
def extractGo (text : List Char) (posMap : List BrandPos) :
    List (List Char) → Except String (List Mention)
  | [] => .ok []
  | b :: bs =>
    match mkMention text posMap b with
    | .error e => .error e
    | .ok m =>
      match extractGo text posMap bs with
      | .error e => .error e
      | .ok rest => .ok (m :: rest)

/-- Shallow embedding of `GeminiService.extractBrandMentions(text, brands)`.
`Except.error` models an exception escaping the method. -/
def extractBrandMentions (text : List Char) (brands : List (List Char)) :
    Except String (List Mention) :=
  extractGo text (sortedBrandPositions text brands) brands

/-- Web-source data of a grounding chunk (`chunk.web`), with an optional
title. -/
structure WebInfo where
  uri : List Char
  title : Option (List Char)
deriving DecidableEq, Repr

/-- One grounding chunk of the provider metadata; non-web chunks have
`web = none`. -/
structure GroundingChunk where
  web : Option WebInfo
deriving DecidableEq, Repr

/-- Provider grounding metadata.  `groundingSupports` is omitted: the
source iterates it with an empty loop body, so it never influences the
result. -/
structure GroundingMetadata where
  groundingChunks : List GroundingChunk
  webSearchQueries : List (List Char)
deriving DecidableEq, Repr

/-- One record of `extractCitations`' result (`title` defaults to the empty
string via `chunk.web.title || ''`). -/
structure CitationRec where
  url : List Char
  title : List Char
  domain : List Char
deriving DecidableEq, Repr

/-- Scheme characters per RFC 3986 / the WHATWG URL standard. -/
def isSchemeChar (c : Char) : Bool :=
  c.isAlphanum || c = '+' || c = '-' || c = '.'

/-- The characters of `auth` after its last `@` (the WHATWG parser strips
`userinfo@` from the authority). -/
def afterLastAt (auth : List Char) : List Char :=
  (auth.reverse.takeWhile (· ≠ '@')).reverse

/-- Hostname extraction, modelling `new URL(url).hostname` for the common
`scheme://[userinfo@]host[:port][/path…]` shape of web citation URIs:
`none` models the TypeError thrown for a string with no `scheme:` head or a
special-scheme URL with an empty host; the parsed host is lower-cased, as
the WHATWG parser does.  (IPv6 bracket hosts and percent-decoding are out
of scope of this model.) -/
def urlHostname (url : List Char) : Option (List Char) :=
  match url with
  | [] => none
  | c0 :: _ =>
    if !c0.isAlpha then none
    else
      let scheme := url.takeWhile isSchemeChar
      match url.drop scheme.length with
      | ':' :: r =>
        if listStartsWith "//".toList r then
          let auth := (r.drop 2).takeWhile
            (fun d => d ≠ '/' ∧ d ≠ '?' ∧ d ≠ '#')
          let host := (afterLastAt auth).takeWhile (· ≠ ':')
          if host = [] then none else some (toLowerStr host)
        else some []
      | _ => none

/-- Strip one leading `www.`, modelling `hostname.replace(/^www\./, '')`. -/
def stripWww (h : List Char) : List Char :=
  if listStartsWith "www.".toList h then h.drop 4 else h

/-- Shallow embedding of `GeminiService.extractDomain(url)`: hostname with a
leading `www.` stripped, falling back to the raw string when URL parsing
throws. -/
def extractDomain (url : List Char) : List Char :=
  match urlHostname url with
  | some h => stripWww h
  | none => url

/-- The chunk loop of `extractCitations`, carrying the `seenUrls` set. -/
def citationsGo : List GroundingChunk → List (List Char) → List CitationRec
  | [], _ => []
  | chunk :: chunks, seen =>
    match chunk.web with
    | some w =>
      if w.uri ∈ seen then citationsGo chunks seen
      else
        ⟨w.uri, w.title.getD [], extractDomain w.uri⟩ ::
          citationsGo chunks (w.uri :: seen)
    | none => citationsGo chunks seen

/-- Shallow embedding of `GeminiService.extractCitations(groundingMetadata)`:
absent metadata yields `[]`; web chunks are deduplicated by exact URL with
the first occurrence winning. -/
def extractCitations : Option GroundingMetadata → List CitationRec
  | none => []
  | some md => citationsGo md.groundingChunks []

/-- The web data of the first grounding chunk carrying a given URL, the
occurrence whose title wins under deduplication. -/
def firstWebChunk (chunks : List GroundingChunk) (u : List Char) : Option WebInfo :=
  chunks.findSome? (fun c =>
    match c.web with
    | some w => if w.uri = u then some w else none
    | none => none)

/-- Outcome of the external provider call inside `analyzePrompt`'s `try`:
either the response text with its grounding metadata, or a thrown provider
error. -/
inductive ProviderOutcome where
  | ok (text : List Char) (grounding : Option GroundingMetadata)
  | err (msg : String)
deriving DecidableEq, Repr

/-- Result object of `GeminiService.analyzePrompt` (wall-clock
`processingTimeMs` is not modelled; the failure object of the source omits
`sentimentScore`/`isRecommended` on its mention records, which persist
identically to `none`/`false`). -/
structure AnalyzeResult where
  success : Bool
  response : Option (List Char)
  responseLength : Option Nat
  error : Option String
  mentions : List Mention
  citations : List CitationRec
  searchQueries : List (List Char)
deriving DecidableEq, Repr

/-- The per-brand fallback record `analyzePrompt` returns on failure. -/
def fallbackMention (brand : List Char) : Mention :=
  ⟨brand, false, 0, none, none, none, none, false⟩

/-- Shallow embedding of `GeminiService.analyzePrompt(prompt, brands)`:
never throws; a provider error — or an exception thrown by the extraction
pipeline, both being inside the same `try` — is converted into a failure
result with one unmentioned record per brand and no citations. -/
def analyzePrompt (_prompt : List Char) (brands : List (List Char))
    (outcome : ProviderOutcome) : AnalyzeResult :=
  match outcome with
  | .ok text grounding =>
    match extractBrandMentions text brands with
    | .ok mentions =>
      ⟨true, some text, some text.length, none, mentions,
        extractCitations grounding,
        (grounding.map (·.webSearchQueries)).getD []⟩
    | .error msg =>
      ⟨false, none, none, some msg, brands.map fallbackMention, [], []⟩
  | .err msg =>
    ⟨false, none, none, some msg, brands.map fallbackMention, [], []⟩

/-- JavaScript `value || null` on an optional string: the empty string is
falsy and collapses to `null`. -/
def jsStrOrNull : Option (List Char) → Option (List Char)
  | some s => if s = [] then none else some s
  | none => none

/-- JavaScript `value || null` on an optional number: `0` is falsy and
collapses to `null`. -/
def jsNatOrNull : Option Nat → Option Nat
  | some n => if n = 0 then none else some n
  | none => none

/-- JavaScript `value || null` on an optional message string. -/
def jsMsgOrNull : Option String → Option String
  | some s => if s = "" then none else some s
  | none => none

/-- A brand row of the project (`project.brands`). -/
structure BrandRow where
  id : Nat
  name : List Char
deriving DecidableEq, Repr

/-- An active prompt row of the project. -/
structure PromptRow where
  id : Nat
  text : List Char
deriving DecidableEq, Repr

/-- A persisted `PromptResult` row. -/
structure PromptResultRow where
  id : Nat
  promptId : Nat
  rawResponse : Option (List Char)
  responseLength : Option Nat
  error : Option String
deriving DecidableEq, Repr

/-- A persisted `BrandMention` row. -/
structure BrandMentionRow where
  promptResultId : Nat
  brandId : Nat
  position : Option Nat
  sentiment : Option SentimentLabel
  sentimentScore : Option ℚ
  contextSnippet : Option (List Char)
  isRecommended : Bool
deriving DecidableEq, Repr

/-- A persisted `Citation` row. -/
structure CitationRow where
  promptResultId : Nat
  url : List Char
  domain : List Char
  title : Option (List Char)
deriving DecidableEq, Repr

/-- A progress-stream event emitted by the orchestrator. -/
inductive ProgressEvent where
  | progress (processed total : Nat) (currentPrompt : List Char)
  | complete
deriving DecidableEq, Repr

/-- Persistent state threaded through `AnalysisRunner.runAnalysis`: the
three row tables (rows carry synthetic sequential ids), the history of
writes to the run's `processedPrompts` counter, and the emitted progress
events.  Persistence writes are modelled as total. -/
structure RunState where
  nextId : Nat
  promptResults : List PromptResultRow
  brandMentions : List BrandMentionRow
  citations : List CitationRow
  processedUpdates : List Nat
  events : List ProgressEvent
deriving DecidableEq, Repr

/-- The empty initial state of a run. -/
def initialRunState : RunState :=
  ⟨0, [], [], [], [], []⟩

/-- The `BrandMention` rows the orchestrator persists for one prompt
result: guarded by `result.mentions.length > 0`, one row per mention record
whose brand name is found in `project.brands` (a mention for an unknown
brand is skipped). -/
def mentionRowsFor (brands : List BrandRow) (prId : Nat)
    (mentions : List Mention) : List BrandMentionRow :=
  if 0 < mentions.length then
    mentions.filterMap (fun m =>
      (brands.find? (fun b => b.name == m.brand)).map (fun b =>
        (⟨prId, b.id, m.position, m.sentiment, m.sentimentScore,
          m.context, m.isRecommended⟩ : BrandMentionRow)))
  else []

/-- The `Citation` rows the orchestrator persists for one prompt result. -/
def citationRowsFor (prId : Nat) (citations : List CitationRec) :
    List CitationRow :=
  if 0 < citations.length then
    citations.map (fun c =>
      (⟨prId, c.url, c.domain, jsStrOrNull (some c.title)⟩ : CitationRow))
  else []

/-- One iteration of the prompt loop in `AnalysisRunner.runAnalysis`:
query the analyzer, persist the `PromptResult` row, persist one
`BrandMention` row per mention record whose brand name is found in
`project.brands`, persist the citations, then write `processedPrompts = i+1`
and emit a progress event. -/
def processPrompt (brands : List BrandRow) (total : Nat) (st : RunState)
    (idx : Nat) (item : PromptRow × ProviderOutcome) : RunState :=
  let result := analyzePrompt item.1.text (brands.map (·.name)) item.2
  let prId := st.nextId
  let prRow : PromptResultRow :=
    ⟨prId, item.1.id, jsStrOrNull result.response,
      jsNatOrNull result.responseLength, jsMsgOrNull result.error⟩
  let mentionRows := mentionRowsFor brands prId result.mentions
  let citationRows := citationRowsFor prId result.citations
  ⟨prId + 1,
    st.promptResults ++ [prRow],
    st.brandMentions ++ mentionRows,
    st.citations ++ citationRows,
    st.processedUpdates ++ [idx + 1],
    st.events ++ [.progress (idx + 1) total item.1.text]⟩

/-- The sequential prompt loop of `runAnalysis` (prompts are processed
strictly one at a time; the pacing delay has no observable effect on the
modelled state). -/
def runLoop (brands : List BrandRow) (total : Nat) :
    Nat → RunState → List (PromptRow × ProviderOutcome) → RunState
  | _, st, [] => st
  | idx, st, item :: rest =>
    runLoop brands total (idx + 1) (processPrompt brands total st idx item) rest

/-- The view of a `PromptResult` row together with its joined
`brandMentions` and `citations`, as returned by the aggregator's
`findMany({ include: … })`. -/
structure PromptResultView where
  error : Option String
  brandMentions : List BrandMentionRow
  citations : List CitationRow
deriving DecidableEq, Repr

/-- Join the run state's tables into per-result views. -/
def resultViews (st : RunState) : List PromptResultView :=
  st.promptResults.map (fun pr =>
    ⟨pr.error,
      st.brandMentions.filter (fun m => m.promptResultId == pr.id),
      st.citations.filter (fun c => c.promptResultId == pr.id)⟩)

/-- A `MetricsSnapshot` row.  In the schema `shareOfVoice` is a nullable
column with no default; the aggregator's create leaves it unset. -/
structure MetricsSnapshotRow where
  brandId : Nat
  visibilityScore : ℚ
  mentionCount : Nat
  citationCount : Nat
  shareOfVoice : Option ℚ
  averagePosition : Option ℚ
  positiveMentions : Nat
  neutralMentions : Nat
  negativeMentions : Nat
  averageSentiment : Option ℚ
  recommendationCount : Nat
  firstPositionCount : Nat
deriving DecidableEq, Repr

/-- First-pass per-brand body of `AnalysisRunner.calculateMetrics`,
computing every snapshot field except `shareOfVoice`. -/
def brandSnapshot (validResults : List PromptResultView) (brand : BrandRow) :
    MetricsSnapshotRow :=
  let brandMentions := validResults.flatMap (fun r =>
    r.brandMentions.filter (fun m => m.brandId == brand.id))
  let mentionedResults := brandMentions.filter (fun m => m.position ≠ none)
  let mentionCount := mentionedResults.length
  let visibilityScore : ℚ :=
    if 0 < validResults.length then
      (mentionCount : ℚ) / (validResults.length : ℚ) * 100
    else 0
  let positions := (mentionedResults.map (·.position)).filterMap id
  let averagePosition : Option ℚ :=
    if 0 < positions.length then
      some (((positions.sum : Nat) : ℚ) / (positions.length : ℚ))
    else none
  let firstPositionCount := (positions.filter (· == 1)).length
  let positiveMentions :=
    (mentionedResults.filter (fun m => m.sentiment == some .positive)).length
  let neutralMentions :=
    (mentionedResults.filter (fun m => m.sentiment == some .neutral)).length
  let negativeMentions :=
    (mentionedResults.filter (fun m => m.sentiment == some .negative)).length
  let sentimentScores := (mentionedResults.map (·.sentimentScore)).filterMap id
  let averageSentiment : Option ℚ :=
    if 0 < sentimentScores.length then
      some (sentimentScores.sum / (sentimentScores.length : ℚ))
    else none
  let recommendationCount := (mentionedResults.filter (·.isRecommended)).length
  let citationCount :=
    (validResults.filter (fun r =>
      r.brandMentions.any (fun m => m.brandId == brand.id && m.position ≠ none))
    ).foldl (fun sum r => sum + r.citations.length) 0
  ⟨brand.id, visibilityScore, mentionCount, citationCount, none,
    averagePosition, positiveMentions, neutralMentions, negativeMentions,
    averageSentiment, recommendationCount, firstPositionCount⟩

/-- Shallow embedding of `AnalysisRunner.calculateMetrics` for a fresh run
(snapshots are created, so `shareOfVoice` starts unset): the first pass
computes per-brand snapshots over the error-free results, then — only when
the run-wide mention total is positive — a second pass fills in
`shareOfVoice = mentionCount / total × 100`. -/
def calculateMetrics (brands : List BrandRow) (results : List PromptResultView) :
    List MetricsSnapshotRow :=
  let validResults := results.filter (fun r => r.error == none)
  let snaps := brands.map (brandSnapshot validResults)
  let total : Nat := (snaps.map (·.mentionCount)).sum
  if 0 < total then
    snaps.map (fun s =>
      { s with shareOfVoice := some ((s.mentionCount : ℚ) / (total : ℚ) * 100) })
  else snaps

/-- Output of a full run: the final persisted state and the metrics
snapshots (the run-status transitions carry no further observable data and
are not modelled). -/
structure RunOutput where
  state : RunState
  snapshots : List MetricsSnapshotRow
deriving DecidableEq, Repr

/-- Shallow embedding of `AnalysisRunner.runAnalysis`: process all prompts
sequentially, aggregate metrics, then emit the completion event. -/
def runAnalysis (brands : List BrandRow)
    (items : List (PromptRow × ProviderOutcome)) : RunOutput :=
  let st := runLoop brands items.length 0 initialRunState items
  let snaps := calculateMetrics brands (resultViews st)
  ⟨{ st with events := st.events ++ [.complete] }, snaps⟩

/-- The progress-event sequence the specification describes: one
`{processed, total, currentPrompt}` notification per prompt, with
`processed` counting up from `idx + 1`. -/
def progressEvents (total : Nat) : Nat → List (PromptRow × ProviderOutcome) → List ProgressEvent
  | _, [] => []
  | idx, item :: rest =>
    .progress (idx + 1) total item.1.text :: progressEvents total (idx + 1) rest

/-- Context window as the claim words it: 150 characters before and after
the first match's START (the source instead ends the window 150 characters
after the match's end).  Kept for comparison with `mkMention`. -/
def contextWindowClaim (text _brand : List Char) (i0 : Nat) : List Char :=
  trimList (sliceList text (i0 - 150) (min text.length (i0 + 150)))

/-- Number of distinct lexicon phrases found (case-insensitively, as
substrings) in a context, the counting notion the specification uses for
`matchedPositive` / `matchedNegative`. -/
def lexiconMatchCount (pats : List (List Char)) (context : List Char) : Nat :=
  (pats.filter (fun pat => containsSub (toLowerStr context) pat)).length

/-- Invariant of the run state: row ids are below the id counter, and every
persisted `PromptResult` with a non-null `error` has no `Citation` rows but
exactly one `BrandMention` row per project brand, each with a null
`position`. -/
def errorRowsInv (brands : List BrandRow) (st : RunState) : Prop :=
  (∀ pr ∈ st.promptResults, pr.id < st.nextId)
  ∧ (∀ bm ∈ st.brandMentions, bm.promptResultId < st.nextId)
  ∧ (∀ c ∈ st.citations, c.promptResultId < st.nextId)
  ∧ (∀ pr ∈ st.promptResults, pr.error ≠ none →
      (st.citations.filter (fun c => c.promptResultId == pr.id)) = []
      ∧ (st.brandMentions.filter (fun m => m.promptResultId == pr.id)).length
          = brands.length
      ∧ ∀ bm ∈ st.brandMentions.filter (fun m => m.promptResultId == pr.id),
          bm.position = none)

theorem foldl_count_pos (l : List (List Char)) (q : List Char → Bool)
    (a : Int) (b : Nat) :
    l.foldl (fun acc pat => if q pat then (acc.1 + 1, acc.2 + 1) else acc) (a, b)
      = (a + ((l.filter q).length : Int), b + (l.filter q).length) := by
  induction l generalizing a b with
  | nil => simp
  | cons x xs ih =>
    by_cases hx : q x <;>
      simp only [List.foldl_cons, List.filter_cons, hx, if_pos, if_neg,
        ite_true, ite_false, List.length_cons, ih] <;>
      refine Prod.ext ?_ ?_ <;> simp <;> omega

theorem foldl_count_neg (l : List (List Char)) (q : List Char → Bool)
    (a : Int) (b : Nat) :
    l.foldl (fun acc pat => if q pat then (acc.1 - 1, acc.2 + 1) else acc) (a, b)
      = (a - ((l.filter q).length : Int), b + (l.filter q).length) := by
  induction l generalizing a b with
  | nil => simp
  | cons x xs ih =>
    by_cases hx : q x <;>
      simp only [List.foldl_cons, List.filter_cons, hx, if_pos, if_neg,
        ite_true, ite_false, List.length_cons, ih] <;>
      refine Prod.ext ?_ ?_ <;> simp <;> omega

theorem analyzeSentiment_eq (context brand : List Char) :
    analyzeSentiment context brand =
      let mp := lexiconMatchCount positivePatterns context
      let mn := lexiconMatchCount negativePatterns context
      let score : ℚ :=
        if mp + mn = 0 then 0
        else clampQ (-1) 1
          (((mp : ℚ) - (mn : ℚ)) / ((max mp (max mn 1) : Nat) : ℚ))
      ⟨if (1 : ℚ)/5 < score then .positive
        else if score < -((1 : ℚ)/5) then .negative else .neutral, score⟩ := by
  have hs : ∀ mp mn : Nat,
      (if 0 < mp + mn then
        clampQ (-1) 1 (((mp : ℚ) - (mn : ℚ)) / max (mp : ℚ) (max (mn : ℚ) 1))
      else 0)
        = (if mp + mn = 0 then (0 : ℚ)
           else clampQ (-1) 1 (((mp : ℚ) - (mn : ℚ)) / max (mp : ℚ) (max (mn : ℚ) 1))) := by
    intro mp mn
    by_cases h : mp + mn = 0
    · simp [h]
    · simp [h, Nat.pos_of_ne_zero h]
  unfold analyzeSentiment lexiconMatchCount
  dsimp only
  simp only [foldl_count_pos, foldl_count_neg, Int.zero_add, Nat.zero_add]
  push_cast
  rw [hs]

theorem classify_iff (s : ℚ) :
    ((if (1 : ℚ)/5 < s then SentimentLabel.positive
      else if s < -((1 : ℚ)/5) then SentimentLabel.negative
      else SentimentLabel.neutral) = .positive ↔ (1 : ℚ)/5 < s)
    ∧ ((if (1 : ℚ)/5 < s then SentimentLabel.positive
        else if s < -((1 : ℚ)/5) then SentimentLabel.negative
        else SentimentLabel.neutral) = .negative ↔ s < -((1 : ℚ)/5))
    ∧ ((if (1 : ℚ)/5 < s then SentimentLabel.positive
        else if s < -((1 : ℚ)/5) then SentimentLabel.negative
        else SentimentLabel.neutral) = .neutral ↔
          ¬ (1 : ℚ)/5 < s ∧ ¬ s < -((1 : ℚ)/5)) := by
  by_cases h1 : (1 : ℚ)/5 < s
  · have h2 : ¬ s < -((1 : ℚ)/5) := by linarith
    rw [if_pos h1]
    exact ⟨iff_of_true rfl h1, iff_of_false (by simp) h2,
      iff_of_false (by simp) (fun h => h.1 h1)⟩
  · by_cases h2 : s < -((1 : ℚ)/5)
    · rw [if_neg h1, if_pos h2]
      exact ⟨iff_of_false (by simp) h1, iff_of_true rfl h2,
        iff_of_false (by simp) (fun h => h.2 h2)⟩
    · rw [if_neg h1, if_neg h2]
      exact ⟨iff_of_false (by simp) h1, iff_of_false (by simp) h2,
        iff_of_true rfl ⟨h1, h2⟩⟩

/-- Claim C7: for every context string, the sentiment score is 0 when no
lexicon phrase occurs, otherwise
`clamp(-1, 1, (matchedPositive - matchedNegative) / max(matchedPositive,
matchedNegative, 1))` with the counts taken by case-insensitive substring
search of the fixed lexicons; the label is positive iff score > 0.2,
negative iff score < -0.2, neutral otherwise, so a match-free context is
neutral with score 0 — and the specification's two worked examples classify
as stated. -/
theorem sentiment_heuristic_spec (context brand : List Char) :
    (analyzeSentiment context brand).score =
      (if lexiconMatchCount positivePatterns context
          + lexiconMatchCount negativePatterns context = 0 then (0 : ℚ)
       else clampQ (-1) 1
        (((lexiconMatchCount positivePatterns context : ℚ)
            - (lexiconMatchCount negativePatterns context : ℚ)) /
          ((max (lexiconMatchCount positivePatterns context)
              (max (lexiconMatchCount negativePatterns context) 1) : Nat) : ℚ)))
    ∧ ((analyzeSentiment context brand).sentiment = .positive ↔
        (1 : ℚ)/5 < (analyzeSentiment context brand).score)
    ∧ ((analyzeSentiment context brand).sentiment = .negative ↔
        (analyzeSentiment context brand).score < -((1 : ℚ)/5))
    ∧ ((analyzeSentiment context brand).sentiment = .neutral ↔
        ¬ (1 : ℚ)/5 < (analyzeSentiment context brand).score
          ∧ ¬ (analyzeSentiment context brand).score < -((1 : ℚ)/5))
    ∧ (lexiconMatchCount positivePatterns context = 0 →
        lexiconMatchCount negativePatterns context = 0 →
        analyzeSentiment context brand = ⟨.neutral, 0⟩)
    ∧ analyzeSentiment "X is the best tool, highly rated".toList "X".toList
        = ⟨.positive, 1⟩
    ∧ analyzeSentiment "X is expensive and clunky".toList "X".toList
        = ⟨.negative, -1⟩ := by
  have hex1 : analyzeSentiment "X is the best tool, highly rated".toList
      "X".toList = ⟨.positive, 1⟩ := by
    have hmp : lexiconMatchCount positivePatterns
        "X is the best tool, highly rated".toList = 2 := by decide
    have hmn : lexiconMatchCount negativePatterns
        "X is the best tool, highly rated".toList = 0 := by decide
    rw [analyzeSentiment_eq]
    dsimp only
    rw [hmp, hmn]
    norm_num [clampQ]
  have hex2 : analyzeSentiment "X is expensive and clunky".toList
      "X".toList = ⟨.negative, -1⟩ := by
    have hmp : lexiconMatchCount positivePatterns
        "X is expensive and clunky".toList = 0 := by decide
    have hmn : lexiconMatchCount negativePatterns
        "X is expensive and clunky".toList = 2 := by decide
    rw [analyzeSentiment_eq]
    dsimp only
    rw [hmp, hmn]
    norm_num [clampQ]
  refine ⟨?_, ?_, ?_, ?_, ?_, hex1, hex2⟩
  · rw [analyzeSentiment_eq]
  · rw [analyzeSentiment_eq]
    exact (classify_iff _).1
  · rw [analyzeSentiment_eq]
    exact (classify_iff _).2.1
  · rw [analyzeSentiment_eq]
    exact (classify_iff _).2.2
  · intro h1 h2
    rw [analyzeSentiment_eq]
    simp [h1, h2]
    norm_num

/-- Witness for `sentiment_heuristic_spec`: a concrete context with no
lexicon hits is classified neutral with score 0. -/
theorem sentiment_heuristic_spec_witness :
    analyzeSentiment "just plain words here".toList "X".toList
      = ⟨.neutral, 0⟩ :=
  (sentiment_heuristic_spec "just plain words here".toList "X".toList).2.2.2.2.1
    (by decide) (by decide)

/-- Claim C10: recommendation detection splices the raw lower-cased brand
name into its regex patterns without escaping, so the brand name `x(`
(containing an unbalanced parenthesis) makes the pattern construction in
`checkIfRecommended` throw — even though the same brand is successfully
whole-word matched by the escaped mention regex (first match at index 1 of
the text ` x(b`).  Because this runs inside `analyzePrompt`'s try block, a
successful provider response is converted into an error result
(`success = false`, error set, all brands unmentioned, no citations). -/
theorem checkIfRecommended_unescaped_throw :
    checkIfRecommended " x(b".toList "x(".toList
      = .error "Invalid regular expression"
    ∧ firstWholeWordMatch " x(b".toList "x(".toList = some 1
    ∧ analyzePrompt "p".toList ["x(".toList]
        (.ok " x(b".toList none)
      = ⟨false, none, none, some "Invalid regular expression",
          [fallbackMention "x(".toList], [], []⟩ := by
  refine ⟨rfl, by decide, rfl⟩

theorem runLoop_trace :
    ∀ (items : List (PromptRow × ProviderOutcome)) (brands : List BrandRow)
      (total idx : Nat) (st : RunState),
    (runLoop brands total idx st items).processedUpdates
        = st.processedUpdates ++ List.range' (idx + 1) items.length
    ∧ (runLoop brands total idx st items).events
        = st.events ++ progressEvents total idx items := by
  intro items
  induction items with
  | nil =>
    intro brands total idx st
    simp [runLoop, progressEvents]
  | cons item rest ih =>
    intro brands total idx st
    rw [runLoop]
    refine ⟨?_, ?_⟩
    · rw [(ih brands total (idx + 1) _).1]
      show (st.processedUpdates ++ [idx + 1]) ++ _ = _
      rw [List.append_assoc]
      rfl
    · rw [(ih brands total (idx + 1) _).2]
      show (st.events ++ [ProgressEvent.progress (idx + 1) total item.1.text]) ++ _ = _
      rw [List.append_assoc]
      rfl

/-- Claim C2: over a whole run, the `processedPrompts` counter is written
exactly once per prompt, with the values `1, 2, …, n` in order (so it
increases strictly monotonically by 1 per prompt, success or failure
alike), and exactly one `{processed, total, currentPrompt}` progress
notification is emitted per prompt, followed by the completion event. -/
theorem progress_counter_spec (brands : List BrandRow)
    (items : List (PromptRow × ProviderOutcome)) :
    (runAnalysis brands items).state.processedUpdates
        = List.range' 1 items.length
    ∧ (runAnalysis brands items).state.events
        = progressEvents items.length 0 items ++ [.complete] := by
  have h := runLoop_trace items brands items.length 0 initialRunState
  unfold runAnalysis
  refine ⟨?_, ?_⟩
  · show (runLoop brands items.length 0 initialRunState items).processedUpdates = _
    rw [h.1]
    rfl
  · show (runLoop brands items.length 0 initialRunState items).events ++ [_] = _
    rw [h.2]
    rfl

theorem analyzePrompt_error_shape (p : List Char) (brands : List (List Char))
    (o : ProviderOutcome) (h : (analyzePrompt p brands o).error ≠ none) :
    (analyzePrompt p brands o).mentions = brands.map fallbackMention
    ∧ (analyzePrompt p brands o).citations = [] := by
  cases o with
  | ok text g =>
    unfold analyzePrompt at h ⊢
    dsimp only at h ⊢
    cases hx : extractBrandMentions text brands with
    | ok ms => simp only [hx] at h ⊢; exact absurd rfl h
    | error msg => simp [hx]
  | err msg => exact ⟨rfl, rfl⟩

theorem length_filterMap_eq_of_isSome {α β : Type} (l : List α) (f : α → Option β)
    (h : ∀ a ∈ l, (f a).isSome) : (l.filterMap f).length = l.length := by
  induction l with
  | nil => simp
  | cons x xs ih =>
    have hx := h x (by simp)
    cases hfx : f x with
    | none => rw [hfx] at hx; simp at hx
    | some b =>
      simp only [List.filterMap_cons, hfx, List.length_cons]
      rw [ih (fun a ha => h a (by simp [ha]))]

theorem find?_name_isSome (brands : List BrandRow) (name : List Char)
    (h : name ∈ brands.map (·.name)) :
    (brands.find? (fun b => b.name == name)).isSome := by
  rw [List.find?_isSome]
  rcases List.mem_map.mp h with ⟨b, hb, rfl⟩
  exact ⟨b, hb, by simp⟩

theorem mentionRowsFor_mem (brands : List BrandRow) (prId : Nat)
    (mentions : List Mention) :
    ∀ row ∈ mentionRowsFor brands prId mentions,
      row.promptResultId = prId ∧ ∃ m ∈ mentions, row.position = m.position := by
  intro row hrow
  unfold mentionRowsFor at hrow
  by_cases hlen : 0 < mentions.length
  · rw [if_pos hlen] at hrow
    rcases List.mem_filterMap.mp hrow with ⟨m, hm, hf⟩
    cases hfind : brands.find? (fun b => b.name == m.brand) with
    | none => rw [hfind] at hf; simp at hf
    | some b =>
      rw [hfind] at hf
      simp only [Option.map_some'] at hf
      cases hf
      exact ⟨rfl, m, hm, rfl⟩
  · rw [if_neg hlen] at hrow
    simp at hrow

theorem citationRowsFor_mem (prId : Nat) (citations : List CitationRec) :
    ∀ row ∈ citationRowsFor prId citations, row.promptResultId = prId := by
  intro row hrow
  unfold citationRowsFor at hrow
  by_cases hlen : 0 < citations.length
  · rw [if_pos hlen] at hrow
    rcases List.mem_map.mp hrow with ⟨c, _, rfl⟩
    rfl
  · rw [if_neg hlen] at hrow
    simp at hrow

theorem mentionRowsFor_fallback (brands : List BrandRow) (prId : Nat) :
    (mentionRowsFor brands prId ((brands.map (·.name)).map fallbackMention)).length
      = brands.length := by
  unfold mentionRowsFor
  by_cases hlen : 0 < ((brands.map (·.name)).map fallbackMention).length
  · rw [if_pos hlen]
    rw [length_filterMap_eq_of_isSome]
    · simp
    · intro m hm
      rcases List.mem_map.mp hm with ⟨name, hname, rfl⟩
      rw [Option.isSome_map']
      exact find?_name_isSome brands name hname
  · rw [if_neg hlen]
    simp only [List.length_map] at hlen
    simp [Nat.eq_zero_of_not_pos hlen]

theorem processPrompt_preserves (brands : List BrandRow) (total : Nat)
    (st : RunState) (idx : Nat) (item : PromptRow × ProviderOutcome)
    (h : errorRowsInv brands st) :
    errorRowsInv brands (processPrompt brands total st idx item) := by
  obtain ⟨h1, h2, h3, h4⟩ := h
  unfold processPrompt errorRowsInv
  dsimp only
  set res := analyzePrompt item.1.text (brands.map (·.name)) item.2 with hres
  refine ⟨?_, ?_, ?_, ?_⟩
  · intro pr hpr
    rcases List.mem_append.mp hpr with hold | hnew
    · exact Nat.lt_succ_of_lt (h1 pr hold)
    · rcases List.mem_singleton.mp hnew with rfl
      exact Nat.lt_succ_self _
  · intro bm hbm
    rcases List.mem_append.mp hbm with hold | hnew
    · exact Nat.lt_succ_of_lt (h2 bm hold)
    · rw [(mentionRowsFor_mem brands st.nextId res.mentions bm hnew).1]
      exact Nat.lt_succ_self _
  · intro c hc
    rcases List.mem_append.mp hc with hold | hnew
    · exact Nat.lt_succ_of_lt (h3 c hold)
    · rw [citationRowsFor_mem st.nextId res.citations c hnew]
      exact Nat.lt_succ_self _
  · intro pr hpr herr
    rcases List.mem_append.mp hpr with hold | hnew
    · have hid : pr.id < st.nextId := h1 pr hold
      have hmen : (mentionRowsFor brands st.nextId res.mentions).filter
          (fun m => m.promptResultId == pr.id) = [] := by
        rw [List.filter_eq_nil_iff]
        intro row hrow hbeq
        rw [(mentionRowsFor_mem brands st.nextId res.mentions row hrow).1] at hbeq
        rw [beq_iff_eq] at hbeq
        omega
      have hcit : (citationRowsFor st.nextId res.citations).filter
          (fun c => c.promptResultId == pr.id) = [] := by
        rw [List.filter_eq_nil_iff]
        intro row hrow hbeq
        rw [citationRowsFor_mem st.nextId res.citations row hrow] at hbeq
        rw [beq_iff_eq] at hbeq
        omega
      obtain ⟨ho1, ho2, ho3⟩ := h4 pr hold herr
      refine ⟨?_, ?_, ?_⟩
      · rw [List.filter_append, ho1, hcit]
        rfl
      · rw [List.filter_append, hmen, List.append_nil]
        exact ho2
      · intro bm hbm
        rw [List.filter_append, hmen, List.append_nil] at hbm
        exact ho3 bm hbm
    · rcases List.mem_singleton.mp hnew with rfl
      dsimp only at herr ⊢
      have herr' : res.error ≠ none := by
        intro hcon
        rw [hcon] at herr
        exact herr rfl
      obtain ⟨hm, hc⟩ := analyzePrompt_error_shape item.1.text
        (brands.map (·.name)) item.2 (hres ▸ herr')
      rw [← hres] at hm hc
      have holdm : st.brandMentions.filter
          (fun m => m.promptResultId == st.nextId) = [] := by
        rw [List.filter_eq_nil_iff]
        intro row hrow hbeq
        rw [beq_iff_eq] at hbeq
        have := h2 row hrow
        omega
      have holdc : st.citations.filter
          (fun c => c.promptResultId == st.nextId) = [] := by
        rw [List.filter_eq_nil_iff]
        intro row hrow hbeq
        rw [beq_iff_eq] at hbeq
        have := h3 row hrow
        omega
      refine ⟨?_, ?_, ?_⟩
      · rw [List.filter_append, holdc, List.nil_append, hc]
        rfl
      · rw [List.filter_append, holdm, List.nil_append, hm,
          List.filter_eq_self.mpr]
        · exact mentionRowsFor_fallback brands st.nextId
        · intro row hrow
          rw [beq_iff_eq]
          exact (mentionRowsFor_mem brands st.nextId _ row (hm ▸ hrow)).1
      · intro bm hbm
        rw [List.filter_append, holdm, List.nil_append, hm] at hbm
        have hbm' := List.mem_of_mem_filter hbm
        rcases (mentionRowsFor_mem brands st.nextId _ bm hbm').2 with ⟨m, hmm, hpos⟩
        rcases List.mem_map.mp hmm with ⟨name, _, rfl⟩
        rw [hpos]
        rfl

theorem runLoop_preserves (brands : List BrandRow) (total : Nat) :
    ∀ (items : List (PromptRow × ProviderOutcome)) (idx : Nat) (st : RunState),
    errorRowsInv brands st → errorRowsInv brands (runLoop brands total idx st items) := by
  intro items
  induction items with
  | nil => intro idx st h; exact h
  | cons item rest ih =>
    intro idx st h
    exact ih (idx + 1) _ (processPrompt_preserves brands total st idx item h)

/-- Claim C1 (amended): in every run, a persisted `PromptResult` with a
non-null `error` has zero associated `Citation` rows — but, contrary to the
claim as stated, it has exactly one `BrandMention` row per project brand
(each with a null `position`), because `analyzePrompt` catches provider
failures itself and returns fallback mention records that the orchestrator
then persists like any others. -/
theorem error_result_rows_spec (brands : List BrandRow)
    (items : List (PromptRow × ProviderOutcome)) :
    ∀ pr ∈ (runAnalysis brands items).state.promptResults, pr.error ≠ none →
      ((runAnalysis brands items).state.citations.filter
        (fun c => c.promptResultId == pr.id)) = []
      ∧ ((runAnalysis brands items).state.brandMentions.filter
          (fun m => m.promptResultId == pr.id)).length = brands.length
      ∧ ∀ bm ∈ (runAnalysis brands items).state.brandMentions.filter
          (fun m => m.promptResultId == pr.id), bm.position = none := by
  have hinit : errorRowsInv brands initialRunState := by
    refine ⟨?_, ?_, ?_, ?_⟩ <;> intro x hx <;> simp [initialRunState] at hx
  have h := runLoop_preserves brands items.length items 0 initialRunState hinit
  intro pr hpr herr
  exact h.2.2.2 pr hpr herr

/-- Witness for `error_result_rows_spec`: a concrete one-brand project with
one failing prompt has a `PromptResult` with `error = some "boom"`, zero
citations and one null-position `BrandMention` row. -/
theorem error_result_rows_spec_witness :
    ((⟨0, 1, none, none, some "boom"⟩ : PromptResultRow) ∈
      (runAnalysis [⟨1, "Acme".toList⟩] [(⟨1, "p1".toList⟩, .err "boom")]
        ).state.promptResults)
    ∧ ((runAnalysis [⟨1, "Acme".toList⟩] [(⟨1, "p1".toList⟩, .err "boom")]
        ).state.brandMentions.filter (fun m => m.promptResultId == 0)).length
        = 1 := by
  refine ⟨by decide, ?_⟩
  exact (error_result_rows_spec [⟨1, "Acme".toList⟩]
    [(⟨1, "p1".toList⟩, .err "boom")] ⟨0, 1, none, none, some "boom"⟩
    (by decide) (by decide)).2.1

/-- Counterexample to claim C1 as stated: in this run the only persisted
`PromptResult` carries a provider-failure error, yet it has an associated
`BrandMention` row (the filtered mention table is nonempty), contradicting
"zero associated BrandMention records". -/
theorem error_result_rows_cex :
    ∃ pr ∈ (runAnalysis [⟨1, "Acme".toList⟩] [(⟨1, "p1".toList⟩, .err "boom")]
      ).state.promptResults, pr.error ≠ none ∧
      ((runAnalysis [⟨1, "Acme".toList⟩] [(⟨1, "p1".toList⟩, .err "boom")]
        ).state.brandMentions.filter
          (fun m => m.promptResultId == pr.id)) ≠ [] := by
  decide

theorem list_filterMap_some {α β : Type} (l : List α) (f : α → β) :
    l.filterMap (fun a => some (f a)) = l.map f := by
  induction l with
  | nil => simp
  | cons x xs ih => simp [List.filterMap_cons, ih]

theorem list_sum_map_mul_right {α : Type} (l : List α) (f : α → ℚ) (c : ℚ) :
    (l.map (fun a => f a * c)).sum = (l.map f).sum * c := by
  induction l with
  | nil => simp
  | cons x xs ih =>
    simp only [List.map_cons, List.sum_cons, ih]
    ring

theorem list_sum_map_natCast {α : Type} (l : List α) (f : α → Nat) :
    (l.map (fun a => ((f a : Nat) : ℚ))).sum = (((l.map f).sum : Nat) : ℚ) := by
  induction l with
  | nil => simp
  | cons x xs ih =>
    simp only [List.map_cons, List.sum_cons, ih]
    push_cast
    ring

/-- Claim C3 (amended): the aggregator creates one snapshot per brand; when
the run-wide mention total is positive, every snapshot's `shareOfVoice`
equals `mentionCount / total × 100` and the shares sum to exactly 100; but
when the total is 0 the second pass never runs and — contrary to the claim
as stated — every snapshot's `shareOfVoice` is left null (the column has no
default), not 0, while the snapshots themselves still exist. -/
theorem shareOfVoice_spec (brands : List BrandRow)
    (results : List PromptResultView) :
    (calculateMetrics brands results).length = brands.length
    ∧ (0 < ((calculateMetrics brands results).map (·.mentionCount)).sum →
        (∀ s ∈ calculateMetrics brands results,
          s.shareOfVoice = some ((s.mentionCount : ℚ) /
            ((((calculateMetrics brands results).map (·.mentionCount)).sum : Nat) : ℚ)
              * 100))
        ∧ ((calculateMetrics brands results).filterMap (·.shareOfVoice)).sum = 100)
    ∧ (((calculateMetrics brands results).map (·.mentionCount)).sum = 0 →
        ∀ s ∈ calculateMetrics brands results, s.shareOfVoice = none) := by
  unfold calculateMetrics
  dsimp only
  set v := results.filter (fun r => r.error == none) with hv
  set fst := brands.map (brandSnapshot v) with hfst
  set t : Nat := (fst.map (·.mentionCount)).sum with ht
  by_cases hpos : 0 < t
  · rw [if_pos hpos]
    have hmap : ((fst.map (fun s =>
        { s with shareOfVoice := some ((s.mentionCount : ℚ) / (t : ℚ) * 100) })).map
          (·.mentionCount)) = fst.map (·.mentionCount) := by
      rw [List.map_map]
      rfl
    have htQ : (t : ℚ) ≠ 0 :=
      Nat.cast_ne_zero.mpr (Nat.pos_iff_ne_zero.mp hpos)
    refine ⟨by rw [List.length_map, hfst, List.length_map], ?_, ?_⟩
    · intro _
      constructor
      · intro s hs
        rcases List.mem_map.mp hs with ⟨s0, _, rfl⟩
        rw [hmap]
      · rw [List.filterMap_map]
        show (fst.filterMap (fun s =>
          some ((s.mentionCount : ℚ) / (t : ℚ) * 100))).sum = 100
        rw [list_filterMap_some]
        have hfun : (fun (s : MetricsSnapshotRow) =>
            (s.mentionCount : ℚ) / (t : ℚ) * 100)
            = fun s => ((s.mentionCount : Nat) : ℚ) * (100 / (t : ℚ)) :=
          funext fun s => by ring
        rw [hfun, list_sum_map_mul_right fst (fun s => ((s.mentionCount : Nat) : ℚ)),
          list_sum_map_natCast fst (·.mentionCount), ← ht]
        field_simp
    · intro hzero
      rw [hmap] at hzero
      rw [← ht] at hzero
      omega
  · rw [if_neg hpos]
    have hzero : t = 0 := by omega
    refine ⟨by rw [hfst, List.length_map], ?_, ?_⟩
    · intro hcon
      rw [← ht] at hcon
      exact absurd hcon hpos
    · intro _ s hs
      rw [hfst] at hs
      rcases List.mem_map.mp hs with ⟨b, _, rfl⟩
      rfl

/-- Witness for `shareOfVoice_spec`: one brand, one valid result with one
positive-position mention; the run total is 1 and the shares sum to 100. -/
theorem shareOfVoice_spec_witness :
    ((calculateMetrics [⟨1, "A".toList⟩]
      [⟨none, [⟨0, 1, some 1, none, none, none, false⟩], []⟩]).filterMap
        (·.shareOfVoice)).sum = 100 :=
  ((shareOfVoice_spec [⟨1, "A".toList⟩]
    [⟨none, [⟨0, 1, some 1, none, none, none, false⟩], []⟩]).2.1
      (by decide)).2

/-- Counterexample to claim C3 as stated: with a zero run-wide mention
total, the snapshot still exists but its `shareOfVoice` is null, not 0. -/
theorem shareOfVoice_zero_total_cex :
    ((calculateMetrics [⟨1, "A".toList⟩] []).map (·.mentionCount)).sum = 0
    ∧ (calculateMetrics [⟨1, "A".toList⟩] []).length = 1
    ∧ ∃ s ∈ calculateMetrics [⟨1, "A".toList⟩] [], s.shareOfVoice = none := by
  refine ⟨by decide, by decide, ?_⟩
  refine ⟨(calculateMetrics [⟨1, "A".toList⟩] []).head (by decide), ?_, ?_⟩
  · exact List.head_mem _
  · rfl

theorem citationsGo_mem (chunks : List GroundingChunk) :
    ∀ (seen : List (List Char)) (r : CitationRec), r ∈ citationsGo chunks seen →
      r.url ∉ seen ∧ ∃ w, firstWebChunk chunks r.url = some w ∧ r.url = w.uri
        ∧ r.title = w.title.getD [] ∧ r.domain = extractDomain w.uri := by
  induction chunks with
  | nil => intro seen r hr; simp [citationsGo] at hr
  | cons chunk rest ih =>
    intro seen r hr
    unfold citationsGo at hr
    cases hweb : chunk.web with
    | none =>
      rw [hweb] at hr
      dsimp only at hr
      obtain ⟨hnot, w, hfw, hrest⟩ := ih seen r hr
      refine ⟨hnot, w, ?_, hrest⟩
      unfold firstWebChunk
      rw [List.findSome?_cons, hweb]
      dsimp only
      exact hfw
    | some w0 =>
      rw [hweb] at hr
      dsimp only at hr
      by_cases hseen : w0.uri ∈ seen
      · rw [if_pos hseen] at hr
        obtain ⟨hnot, w, hfw, hrest⟩ := ih seen r hr
        refine ⟨hnot, w, ?_, hrest⟩
        unfold firstWebChunk
        rw [List.findSome?_cons, hweb]
        dsimp only
        have hne : ¬ w0.uri = r.url := fun hcon => hnot (hcon ▸ hseen)
        rw [if_neg hne]
        dsimp only
        exact hfw
      · rw [if_neg hseen] at hr
        rcases List.mem_cons.mp hr with rfl | hr'
        · refine ⟨hseen, w0, ?_, rfl, rfl, rfl⟩
          unfold firstWebChunk
          rw [List.findSome?_cons, hweb]
          dsimp only
          rw [if_pos rfl]
        · obtain ⟨hnot, w, hfw, hrest⟩ := ih (w0.uri :: seen) r hr'
          have hne : r.url ≠ w0.uri := fun hcon => hnot (by simp [hcon])
          refine ⟨fun hcon => hnot (by simp [hcon]), w, ?_, hrest⟩
          unfold firstWebChunk
          rw [List.findSome?_cons, hweb]
          dsimp only
          rw [if_neg (fun hcon => hne hcon.symm)]
          dsimp only
          exact hfw

theorem citationsGo_nodup (chunks : List GroundingChunk) :
    ∀ seen : List (List Char), ((citationsGo chunks seen).map (·.url)).Nodup := by
  induction chunks with
  | nil => intro seen; simp [citationsGo]
  | cons chunk rest ih =>
    intro seen
    unfold citationsGo
    cases hweb : chunk.web with
    | none => exact ih seen
    | some w0 =>
      dsimp only
      by_cases hseen : w0.uri ∈ seen
      · rw [if_pos hseen]
        exact ih seen
      · rw [if_neg hseen]
        rw [List.map_cons, List.nodup_cons]
        refine ⟨?_, ih (w0.uri :: seen)⟩
        intro hcon
        rcases List.mem_map.mp hcon with ⟨r, hr, hurl⟩
        have := (citationsGo_mem rest (w0.uri :: seen) r hr).1
        exact this (by simp [hurl])

theorem citationsGo_complete (chunks : List GroundingChunk) :
    ∀ seen : List (List Char), ∀ chunk ∈ chunks, ∀ w, chunk.web = some w →
      w.uri ∈ seen ∨ ∃ r ∈ citationsGo chunks seen, r.url = w.uri := by
  induction chunks with
  | nil => intro seen chunk hc; simp at hc
  | cons c0 rest ih =>
    intro seen chunk hc w hw
    unfold citationsGo
    cases hweb : c0.web with
    | none =>
      dsimp only
      rcases List.mem_cons.mp hc with rfl | hc'
      · rw [hweb] at hw; exact absurd hw (by simp)
      · exact ih seen chunk hc' w hw
    | some w0 =>
      dsimp only
      by_cases hseen : w0.uri ∈ seen
      · rw [if_pos hseen]
        rcases List.mem_cons.mp hc with rfl | hc'
        · rw [hweb] at hw
          cases hw
          exact Or.inl hseen
        · exact ih seen chunk hc' w hw
      · rw [if_neg hseen]
        rcases List.mem_cons.mp hc with rfl | hc'
        · rw [hweb] at hw
          cases hw
          exact Or.inr ⟨_, List.mem_cons_self _ _, rfl⟩
        · rcases ih (w0.uri :: seen) chunk hc' w hw with hmem | ⟨r, hr, hurl⟩
          · rcases List.mem_cons.mp hmem with heq | hmem'
            · exact Or.inr ⟨_, List.mem_cons_self _ _, heq.symm⟩
            · exact Or.inl hmem'
          · exact Or.inr ⟨r, List.mem_cons_of_mem _ hr, hurl⟩

/-- Claim C9: `extractCitations` is total: absent metadata yields `[]`;
citations are deduplicated by exact URL (output URLs are pairwise distinct,
every web chunk's URL is represented, and each record's title and domain
come from the first chunk bearing that URL); the domain is the parsed
host lower-cased with a leading `www.` stripped, and a malformed URL falls
back to the raw string as the domain.  The two-chunk same-URL
different-title instance yields exactly one record with the first title. -/
theorem extractCitations_spec :
    extractCitations none = []
    ∧ (∀ md : GroundingMetadata,
        ((extractCitations (some md)).map (·.url)).Nodup
        ∧ (∀ chunk ∈ md.groundingChunks, ∀ w, chunk.web = some w →
            ∃ r ∈ extractCitations (some md), r.url = w.uri)
        ∧ (∀ r ∈ extractCitations (some md),
            ∃ w, firstWebChunk md.groundingChunks r.url = some w
              ∧ r.url = w.uri ∧ r.title = w.title.getD []
              ∧ r.domain = extractDomain w.uri))
    ∧ (∀ url h, urlHostname url = some h → extractDomain url = stripWww h)
    ∧ (∀ url, urlHostname url = none → extractDomain url = url)
    ∧ extractDomain "HTTPS://WWW.Example.COM/x".toList = "example.com".toList
    ∧ extractDomain "not a url".toList = "not a url".toList
    ∧ extractCitations (some ⟨[⟨some ⟨"https://a.io/p".toList, some "T1".toList⟩⟩,
        ⟨none⟩, ⟨some ⟨"https://a.io/p".toList, some "T2".toList⟩⟩], []⟩)
        = [⟨"https://a.io/p".toList, "T1".toList, "a.io".toList⟩] := by
  refine ⟨rfl, ?_, ?_, ?_, by decide, by decide, by decide⟩
  · intro md
    refine ⟨citationsGo_nodup md.groundingChunks [], ?_, ?_⟩
    · intro chunk hc w hw
      rcases citationsGo_complete md.groundingChunks [] chunk hc w hw with hmem | h
      · simp at hmem
      · exact h
    · intro r hr
      exact (citationsGo_mem md.groundingChunks [] r hr).2
  · intro url h hsome
    unfold extractDomain
    rw [hsome]
  · intro url hnone
    unfold extractDomain
    rw [hnone]

/-- Witness for `extractCitations_spec`: instantiating the deduplication
clauses at a concrete metadata bag with a duplicated URL. -/
theorem extractCitations_spec_witness :
    ∃ r ∈ extractCitations (some ⟨[⟨some ⟨"https://a.io/p".toList, some "T1".toList⟩⟩,
        ⟨some ⟨"https://a.io/p".toList, some "T2".toList⟩⟩], []⟩),
      r.url = "https://a.io/p".toList :=
  (extractCitations_spec.2.1
      ⟨[⟨some ⟨"https://a.io/p".toList, some "T1".toList⟩⟩,
        ⟨some ⟨"https://a.io/p".toList, some "T2".toList⟩⟩], []⟩).2.1
    ⟨some ⟨"https://a.io/p".toList, some "T1".toList⟩⟩ (by decide)
    ⟨"https://a.io/p".toList, some "T1".toList⟩ (by decide)

theorem extractGo_forall2 (text : List Char) (posMap : List BrandPos) :
    ∀ (bs : List (List Char)) (res : List Mention),
      extractGo text posMap bs = .ok res →
      List.Forall₂ (fun b m => mkMention text posMap b = .ok m) bs res := by
  intro bs
  induction bs with
  | nil =>
    intro res h
    unfold extractGo at h
    cases h
    exact .nil
  | cons b bs ih =>
    intro res h
    unfold extractGo at h
    cases hm : mkMention text posMap b with
    | error e => rw [hm] at h; cases h
    | ok m =>
      rw [hm] at h
      cases hrest : extractGo text posMap bs with
      | error e => rw [hrest] at h; cases h
      | ok ms =>
        rw [hrest] at h
        dsimp only at h
        cases h
        exact .cons hm (ih ms hrest)

theorem mkMention_brand (text : List Char) (posMap : List BrandPos)
    (brand : List Char) (m : Mention) (h : mkMention text posMap brand = .ok m) :
    m.brand = brand := by
  unfold mkMention at h
  cases hidx : matchAllIndices text brand with
  | nil => rw [hidx] at h; cases h; rfl
  | cons i0 rest =>
    rw [hidx] at h
    dsimp only at h
    cases hrec : checkIfRecommended text brand with
    | error e => rw [hrec] at h; cases h
    | ok b => rw [hrec] at h; dsimp only at h; cases h; rfl

theorem mkMention_unmentioned (text : List Char) (posMap : List BrandPos)
    (brand : List Char) (m : Mention) (h : mkMention text posMap brand = .ok m)
    (hm : m.mentioned = false) :
    m = unmentionedRecord brand ∧ matchAllIndices text brand = [] := by
  unfold mkMention at h
  cases hidx : matchAllIndices text brand with
  | nil => rw [hidx] at h; cases h; exact ⟨rfl, rfl⟩
  | cons i0 rest =>
    rw [hidx] at h
    dsimp only at h
    cases hrec : checkIfRecommended text brand with
    | error e => rw [hrec] at h; cases h
    | ok b =>
      rw [hrec] at h
      dsimp only at h
      cases h
      cases hm

theorem mkMention_mentioned (text : List Char) (posMap : List BrandPos)
    (brand : List Char) (m : Mention) (h : mkMention text posMap brand = .ok m)
    (hm : m.mentioned = true) :
    ∃ i0 rest, matchAllIndices text brand = i0 :: rest
      ∧ m.position = positionMapLookup posMap brand
      ∧ m.count = (i0 :: rest).length
      ∧ m.context = some (trimList (sliceList text (i0 - 150)
          (min text.length (i0 + brand.length + 150)))) := by
  unfold mkMention at h
  cases hidx : matchAllIndices text brand with
  | nil => rw [hidx] at h; cases h; cases hm
  | cons i0 rest =>
    rw [hidx] at h
    dsimp only at h
    cases hrec : checkIfRecommended text brand with
    | error e => rw [hrec] at h; cases h
    | ok b =>
      rw [hrec] at h
      dsimp only at h
      cases h
      exact ⟨i0, rest, rfl, rfl, rfl, rfl⟩

theorem forall2_map_brand (text : List Char) (posMap : List BrandPos) :
    ∀ (bs : List (List Char)) (res : List Mention),
      List.Forall₂ (fun b m => mkMention text posMap b = .ok m) bs res →
      res.map (·.brand) = bs := by
  intro bs res hf
  induction hf with
  | nil => rfl
  | cons hbm _ ih =>
    rw [List.map_cons, ih, mkMention_brand _ _ _ _ hbm]

theorem forall2_mem_mk (text : List Char) (posMap : List BrandPos) :
    ∀ (bs : List (List Char)) (res : List Mention),
      List.Forall₂ (fun b m => mkMention text posMap b = .ok m) bs res →
      ∀ m ∈ res, ∃ b, mkMention text posMap b = .ok m := by
  intro bs res hf
  induction hf with
  | nil => intro m hm; simp at hm
  | cons hbm _ ih =>
    intro m hm
    rcases List.mem_cons.mp hm with rfl | hm'
    · exact ⟨_, hbm⟩
    · exact ih m hm'

theorem matchAllIndices_nil (brand : List Char) :
    matchAllIndices [] brand = [] := by
  cases brand <;> rfl

theorem extractGo_all_unmentioned (text : List Char) (posMap : List BrandPos) :
    ∀ bs : List (List Char), (∀ b ∈ bs, matchAllIndices text b = []) →
      extractGo text posMap bs = .ok (bs.map unmentionedRecord) := by
  intro bs
  induction bs with
  | nil => intro _; rfl
  | cons b bs ih =>
    intro h
    unfold extractGo
    have hb : mkMention text posMap b = .ok (unmentionedRecord b) := by
      unfold mkMention
      rw [h b (by simp)]
    rw [hb, ih (fun b' hb' => h b' (by simp [hb']))]
    rfl

/-- Claim C4 (amended): whenever `extractMentions` returns normally — in
particular whenever no mentioned brand name makes the recommendation
patterns an invalid regex — it returns exactly `|B|` records, keyed to the
input brand names in order, with every unmentioned brand getting
`count = 0`, `position`/`context`/`sentiment`/`sentimentScore` null and
`isRecommended = false`; an empty brand list yields `[]`, and an empty
response text yields all brands unmentioned (and always returns).  The
claim's unconditional totality fails: see the counterexample. -/
theorem extractMentions_shape_spec :
    (∀ (text : List Char) (brands : List (List Char)) (res : List Mention),
      extractBrandMentions text brands = .ok res →
        res.map (·.brand) = brands
        ∧ ∀ m ∈ res, m.mentioned = false →
            m.count = 0 ∧ m.position = none ∧ m.context = none
            ∧ m.sentiment = none ∧ m.sentimentScore = none
            ∧ m.isRecommended = false)
    ∧ (∀ text : List Char, extractBrandMentions text [] = .ok [])
    ∧ (∀ brands : List (List Char),
        extractBrandMentions [] brands = .ok (brands.map unmentionedRecord)) := by
  refine ⟨?_, fun _ => rfl, ?_⟩
  · intro text brands res h
    have hf := extractGo_forall2 text (sortedBrandPositions text brands) brands res h
    constructor
    · exact forall2_map_brand text _ brands res hf
    · intro m hm hfalse
      rcases forall2_mem_mk text _ brands res hf m hm with ⟨b, hb⟩
      rcases mkMention_unmentioned _ _ _ _ hb hfalse with ⟨rfl, _⟩
      exact ⟨rfl, rfl, rfl, rfl, rfl, rfl⟩
  · intro brands
    exact extractGo_all_unmentioned [] _ brands (fun b _ => matchAllIndices_nil b)

/-- Witness for `extractMentions_shape_spec`: on a concrete call that
returns, the records are keyed to the brand list in order and the
unmentioned brand carries the default fields. -/
theorem extractMentions_shape_spec_witness :
    ∃ res, extractBrandMentions "zz".toList ["a".toList] = .ok res
      ∧ res.map (·.brand) = ["a".toList]
      ∧ ∀ m ∈ res, m.mentioned = false → m.position = none :=
  ⟨[unmentionedRecord "a".toList], rfl,
    (extractMentions_shape_spec.1 "zz".toList ["a".toList]
      [unmentionedRecord "a".toList] (by rfl)).1,
    fun m hm hfalse =>
      ((extractMentions_shape_spec.1 "zz".toList ["a".toList]
        [unmentionedRecord "a".toList] (by rfl)).2 m hm hfalse).2.1⟩

/-- Counterexample to claim C4 as stated: for the brand name `x(` and the
response text ` x(b` the call does not return `|B|` records at all — it
throws (the unescaped recommendation pattern is an invalid regex). -/
theorem extractMentions_shape_cex :
    extractBrandMentions " x(b".toList ["x(".toList]
      = .error "Invalid regular expression" := by
  rfl

theorem wordAt_true_lt (text : List Char) (k : Nat) (h : wordAt text k = true) :
    k < text.length := by
  unfold wordAt at h
  cases hk : text[k]? with
  | none => rw [hk] at h; cases h
  | some c => exact (List.getElem?_eq_some_iff.mp hk).1

theorem wholeWordAt_le (text brand : List Char) (i : Nat)
    (h : wholeWordAt text brand i = true) : i ≤ text.length := by
  unfold wholeWordAt at h
  have hb : hasBoundary text i = true := by
    rcases Bool.and_eq_true_iff.mp h with ⟨h1, _⟩
    exact (Bool.and_eq_true_iff.mp h1).2
  unfold hasBoundary at hb
  rw [bne_iff_ne] at hb
  cases hwi : wordAt text i with
  | true => exact Nat.le_of_lt (wordAt_true_lt text i hwi)
  | false =>
    rw [hwi] at hb
    cases hz : (if i = 0 then false else wordAt text (i - 1)) with
    | false => rw [hz] at hb; exact absurd rfl hb
    | true =>
      by_cases h0 : i = 0
      · rw [if_pos h0] at hz; cases hz
      · rw [if_neg h0] at hz
        have := wordAt_true_lt text (i - 1) hz
        omega

theorem firstMatchAux_spec (text brand : List Char) :
    ∀ (fuel start : Nat),
      (∀ i, firstMatchAux text brand fuel start = some i →
        start ≤ i ∧ wholeWordAt text brand i = true
          ∧ ∀ j, start ≤ j → j < i → wholeWordAt text brand j = false)
      ∧ (firstMatchAux text brand fuel start = none →
        ∀ j, start ≤ j → j < start + fuel → wholeWordAt text brand j = false) := by
  intro fuel
  induction fuel with
  | zero =>
    intro start
    constructor
    · intro i h
      rw [show firstMatchAux text brand 0 start = none from rfl] at h
      cases h
    · intro _ j h1 h2
      omega
  | succ fuel ih =>
    intro start
    unfold firstMatchAux
    cases hw : wholeWordAt text brand start with
    | true =>
      rw [if_pos rfl]
      refine ⟨fun i h => ?_, fun h => by cases h⟩
      cases h
      exact ⟨Nat.le_refl _, hw, fun j h1 h2 => by omega⟩
    | false =>
      rw [if_neg Bool.false_ne_true]
      refine ⟨fun i h => ?_, fun h j h1 h2 => ?_⟩
      · obtain ⟨hle, hwi, hmin⟩ := (ih (start + 1)).1 i h
        refine ⟨by omega, hwi, fun j h1 h2 => ?_⟩
        rcases Nat.eq_or_lt_of_le h1 with rfl | hlt
        · exact hw
        · exact hmin j hlt h2
      · rcases Nat.eq_or_lt_of_le h1 with rfl | hlt
        · exact hw
        · exact (ih (start + 1)).2 h j hlt (by omega)

theorem firstWholeWordMatch_spec (text brand : List Char) :
    (∀ i, firstWholeWordMatch text brand = some i →
      wholeWordAt text brand i = true
        ∧ ∀ j, j < i → wholeWordAt text brand j = false)
    ∧ (firstWholeWordMatch text brand = none →
      ∀ j, wholeWordAt text brand j = false) := by
  unfold firstWholeWordMatch firstMatchFrom
  constructor
  · intro i h
    obtain ⟨_, hwi, hmin⟩ := (firstMatchAux_spec text brand (text.length + 1 - 0) 0).1 i h
    exact ⟨hwi, fun j hj => hmin j (Nat.zero_le _) hj⟩
  · intro h j
    by_cases hj : j ≤ text.length
    · exact (firstMatchAux_spec text brand (text.length + 1 - 0) 0).2 h j
        (Nat.zero_le _) (by omega)
    · cases hw : wholeWordAt text brand j with
      | false => rfl
      | true => exact absurd (wholeWordAt_le text brand j hw) hj

theorem matchAllIndices_head (text brand : List Char) :
    (matchAllIndices text brand = [] ∧ firstWholeWordMatch text brand = none)
    ∨ ∃ i rest, matchAllIndices text brand = i :: rest
        ∧ firstWholeWordMatch text brand = some i := by
  unfold matchAllIndices matchAllAux
  cases h : firstMatchFrom text brand 0 with
  | none => exact Or.inl ⟨rfl, h⟩
  | some i => exact Or.inr ⟨i, _, rfl, h⟩

theorem analyzeSentiment_no_match (context brand : List Char)
    (h1 : lexiconMatchCount positivePatterns context = 0)
    (h2 : lexiconMatchCount negativePatterns context = 0) :
    analyzeSentiment context brand = ⟨.neutral, 0⟩ := by
  rw [analyzeSentiment_eq]
  simp [h1, h2]
  norm_num

theorem mkMention_eval (text : List Char) (posMap : List BrandPos)
    (brand : List Char) (i0 : Nat) (rest : List Nat) (sr : SentimentResult)
    (isRec : Bool)
    (hidx : matchAllIndices text brand = i0 :: rest)
    (hs : analyzeSentiment (trimList (sliceList text (i0 - 150)
      (min text.length (i0 + brand.length + 150)))) brand = sr)
    (hr : checkIfRecommended text brand = .ok isRec) :
    mkMention text posMap brand = .ok ⟨brand, true, (i0 :: rest).length,
      positionMapLookup posMap brand,
      some (trimList (sliceList text (i0 - 150)
        (min text.length (i0 + brand.length + 150)))),
      some sr.sentiment, some sr.score, isRec⟩ := by
  unfold mkMention
  rw [hidx]
  dsimp only
  rw [hs, hr]

/-- Claim C8 (amended): for every mentioned brand, the context snippet is
the substring of the response text from 150 characters before the first
whole-word match's start to 150 characters after the match's END (start +
brand length + 150) — not 150 after the match's start as claimed — clipped
to the text bounds and trimmed of surrounding whitespace. -/
theorem context_window_spec (text : List Char) (brands : List (List Char))
    (res : List Mention) (h : extractBrandMentions text brands = .ok res) :
    ∀ m ∈ res, ∀ i0 : Nat, wholeWordAt text m.brand i0 = true →
      (∀ j, j < i0 → wholeWordAt text m.brand j = false) →
      m.mentioned = true
      ∧ m.context = some (trimList (sliceList text (i0 - 150)
          (min text.length (i0 + m.brand.length + 150)))) := by
  intro m hm i0 hw hmin
  rcases forall2_mem_mk _ _ _ _ (extractGo_forall2 _ _ _ _ h) m hm with ⟨b, hb⟩
  have hbrand := mkMention_brand _ _ _ _ hb
  subst hbrand
  cases hfm : firstWholeWordMatch text m.brand with
  | none =>
    have := (firstWholeWordMatch_spec text m.brand).2 hfm i0
    rw [hw] at this
    cases this
  | some i1 =>
    obtain ⟨hw1, hmin1⟩ := (firstWholeWordMatch_spec text m.brand).1 i1 hfm
    have hi : i1 = i0 := by
      rcases Nat.lt_trichotomy i1 i0 with hlt | heq | hgt
      · have := hmin i1 hlt; rw [hw1] at this; cases this
      · exact heq
      · have := hmin1 i0 hgt; rw [hw] at this; cases this
    subst hi
    cases hment : m.mentioned with
    | false =>
      exfalso
      rcases mkMention_unmentioned _ _ _ _ hb hment with ⟨_, hempty⟩
      rcases matchAllIndices_head text m.brand with ⟨_, hnone⟩ | ⟨i, r, hcons, _⟩
      · rw [hnone] at hfm; cases hfm
      · rw [hempty] at hcons; cases hcons
    | true =>
      rcases mkMention_mentioned _ _ _ _ hb hment with ⟨j0, r, hidx, _, _, hctx⟩
      have hj : j0 = i1 := by
        rcases matchAllIndices_head text m.brand with ⟨hnil, _⟩ | ⟨i, r', hcons, hsome⟩
        · rw [hnil] at hidx; cases hidx
        · rw [hcons] at hidx
          rw [hsome] at hfm
          cases hfm
          cases hidx
          rfl
      subst hj
      exact ⟨rfl, hctx⟩

theorem extract_single_eval (text brand : List Char) (rec : Mention)
    (hmk : mkMention text (sortedBrandPositions text [brand]) brand = .ok rec) :
    extractBrandMentions text [brand] = .ok [rec] := by
  unfold extractBrandMentions extractGo
  rw [hmk]
  rfl

/-- Witness for `context_window_spec`: the brand `cat` first matches
`q cat q` at index 2, and the context snippet is the whole (trimmed) text,
as the amended window formula dictates. -/
theorem context_window_spec_witness :
    ∃ res, extractBrandMentions "q cat q".toList ["cat".toList] = .ok res
      ∧ ∃ m ∈ res, m.context = some "q cat q".toList := by
  have hmk := mkMention_eval "q cat q".toList
    (sortedBrandPositions "q cat q".toList ["cat".toList]) "cat".toList
    2 [] ⟨.neutral, 0⟩ false (by decide)
    (analyzeSentiment_no_match _ _ (by decide) (by decide)) (by rfl)
  have hok := extract_single_eval "q cat q".toList "cat".toList _ hmk
  refine ⟨_, hok, _, List.mem_singleton_self _, ?_⟩
  exact (context_window_spec "q cat q".toList ["cat".toList] _ hok _
    (List.mem_singleton_self _) 2 (by decide) (by decide)).2

set_option maxRecDepth 8000 in
/-- Counterexample to claim C8 as stated: for the brand `ab` matching at
index 0 of a 153-character text, the produced context extends to index 152
(= match start + brand length + 150), while the claim's window ("150
characters after the first match's start") would end at index 150; the two
snippets differ. -/
theorem context_window_cex :
    firstWholeWordMatch ("ab ".toList ++ List.replicate 150 'x') "ab".toList
      = some 0
    ∧ (∃ res, extractBrandMentions ("ab ".toList ++ List.replicate 150 'x')
        ["ab".toList] = .ok res
        ∧ ∃ m ∈ res, m.context ≠ some (contextWindowClaim
            ("ab ".toList ++ List.replicate 150 'x') "ab".toList 0)) := by
  have hmk := mkMention_eval ("ab ".toList ++ List.replicate 150 'x')
    (sortedBrandPositions ("ab ".toList ++ List.replicate 150 'x') ["ab".toList])
    "ab".toList 0 [] ⟨.neutral, 0⟩ false (by decide)
    (analyzeSentiment_no_match _ _ (by decide) (by decide)) (by rfl)
  have hok := extract_single_eval ("ab ".toList ++ List.replicate 150 'x')
    "ab".toList _ hmk
  refine ⟨by decide, _, hok, _, List.mem_singleton_self _, ?_⟩
  intro hcon
  have : trimList (sliceList ("ab ".toList ++ List.replicate 150 'x')
      (0 - 150) (min ("ab ".toList ++ List.replicate 150 'x').length
        (0 + "ab".toList.length + 150)))
      = contextWindowClaim ("ab ".toList ++ List.replicate 150 'x')
          "ab".toList 0 := by
    exact Option.some_injective _ hcon
  exact absurd this (by decide)

/-- Claim C6: brand matching is case-insensitive whole-word matching.  A
record is mentioned exactly when some whole-word case-insensitive match
exists; an occurrence glued to a word character on its left or right (a
substring of a larger word) never matches at that position; concretely,
`Cat` inside `Catalog` is not counted, `cat` matches `CAT` as a whole word,
and the regex-escaped brand `node.js` matches only the literal text
`node.js`, not `nodexjs`. -/
theorem whole_word_matching_spec :
    (∀ (text : List Char) (brands : List (List Char)) (res : List Mention),
      extractBrandMentions text brands = .ok res →
      ∀ m ∈ res, (m.mentioned = true ↔ ∃ i, wholeWordAt text m.brand i = true))
    ∧ (∀ (text brand : List Char) (i : Nat), 0 < i →
        wordAt text (i - 1) = true → wordAt text i = true →
        wholeWordAt text brand i = false)
    ∧ (∀ (text brand : List Char) (i : Nat), brand ≠ [] →
        wordAt text (i + brand.length - 1) = true →
        wordAt text (i + brand.length) = true →
        wholeWordAt text brand i = false)
    ∧ extractBrandMentions "Catalog".toList ["Cat".toList]
        = .ok [unmentionedRecord "Cat".toList]
    ∧ matchAllIndices "Catalog".toList "Cat".toList = []
    ∧ firstWholeWordMatch "the CAT sat".toList "cat".toList = some 4
    ∧ matchAllIndices "I use nodexjs daily".toList "node.js".toList = []
    ∧ firstWholeWordMatch "I use node.js daily".toList "node.js".toList
        = some 6 := by
  refine ⟨?_, ?_, ?_, by rfl, by decide, by decide, by decide, by decide⟩
  · intro text brands res h m hm
    rcases forall2_mem_mk _ _ _ _ (extractGo_forall2 _ _ _ _ h) m hm with ⟨b, hb⟩
    have hbrand := mkMention_brand _ _ _ _ hb
    subst hbrand
    constructor
    · intro hment
      rcases mkMention_mentioned _ _ _ _ hb hment with ⟨i0, r, hidx, _⟩
      rcases matchAllIndices_head text m.brand with ⟨hnil, _⟩ | ⟨i', r', _, hsome⟩
      · rw [hnil] at hidx; cases hidx
      · exact ⟨i', ((firstWholeWordMatch_spec text m.brand).1 i' hsome).1⟩
    · rintro ⟨i, hi⟩
      cases hment : m.mentioned with
      | true => rfl
      | false =>
        exfalso
        rcases mkMention_unmentioned _ _ _ _ hb hment with ⟨_, hempty⟩
        rcases matchAllIndices_head text m.brand with ⟨_, hnone⟩ | ⟨j, r', hcons, _⟩
        · have := (firstWholeWordMatch_spec text m.brand).2 hnone i
          rw [hi] at this
          cases this
        · rw [hempty] at hcons; cases hcons
  · intro text brand i hpos hleft hright
    have hc : hasBoundary text i = false := by
      unfold hasBoundary
      rw [if_neg (by omega), hleft, hright]
      simp
    unfold wholeWordAt
    rw [hc, Bool.and_false, Bool.false_and]
  · intro text brand i hbrand hleft hright
    have hlen : 0 < brand.length := List.length_pos.mpr hbrand
    have hc : hasBoundary text (i + brand.length) = false := by
      unfold hasBoundary
      rw [if_neg (by omega), hleft, hright]
      simp
    unfold wholeWordAt
    rw [hc, Bool.and_false]

/-- Witness for `whole_word_matching_spec`: from the mentioned-iff-match
equivalence at the `Catalog` instance, there is no whole-word match of
`Cat` anywhere in `Catalog`. -/
theorem whole_word_matching_spec_witness :
    ¬ ∃ i, wholeWordAt "Catalog".toList "Cat".toList i = true := by
  intro hex
  have h := (whole_word_matching_spec.1 "Catalog".toList ["Cat".toList]
    [unmentionedRecord "Cat".toList] (by rfl)
    (unmentionedRecord "Cat".toList) (List.mem_singleton_self _)).mpr hex
  cases h

theorem insertByFirstIndex_perm (e : BrandPos) (l : List BrandPos) :
    (insertByFirstIndex e l).Perm (e :: l) := by
  induction l with
  | nil => exact .refl _
  | cons f fs ih =>
    unfold insertByFirstIndex
    by_cases hle : e.firstIndex ≤ f.firstIndex
    · rw [if_pos hle]
    · rw [if_neg hle]
      exact (List.Perm.cons f ih).trans (List.Perm.swap e f fs)

theorem sortByFirstIndex_perm (l : List BrandPos) :
    (sortByFirstIndex l).Perm l := by
  induction l with
  | nil => exact .refl _
  | cons e es ih =>
    unfold sortByFirstIndex
    exact (insertByFirstIndex_perm e (sortByFirstIndex es)).trans (ih.cons e)

theorem insertByFirstIndex_sorted (e : BrandPos) (l : List BrandPos)
    (h : l.Pairwise (fun a b => a.firstIndex ≤ b.firstIndex)) :
    (insertByFirstIndex e l).Pairwise (fun a b => a.firstIndex ≤ b.firstIndex) := by
  induction l with
  | nil => simp [insertByFirstIndex]
  | cons f fs ih =>
    unfold insertByFirstIndex
    rcases List.pairwise_cons.mp h with ⟨hf, hfs⟩
    by_cases hle : e.firstIndex ≤ f.firstIndex
    · rw [if_pos hle]
      refine List.pairwise_cons.mpr ⟨?_, h⟩
      intro x hx
      rcases List.mem_cons.mp hx with rfl | hx'
      · exact hle
      · exact Nat.le_trans hle (hf x hx')
    · rw [if_neg hle]
      refine List.pairwise_cons.mpr ⟨?_, ih hfs⟩
      intro x hx
      have hx' : x ∈ e :: fs := (insertByFirstIndex_perm e fs).mem_iff.mp hx
      rcases List.mem_cons.mp hx' with rfl | hx''
      · omega
      · exact hf x hx''

theorem sortByFirstIndex_sorted (l : List BrandPos) :
    (sortByFirstIndex l).Pairwise (fun a b => a.firstIndex ≤ b.firstIndex) := by
  induction l with
  | nil => simp [sortByFirstIndex]
  | cons e es ih => exact insertByFirstIndex_sorted e _ ih

theorem sortedBrandPositions_mem (text : List Char) (brands : List (List Char)) :
    ∀ x ∈ sortedBrandPositions text brands,
      firstWholeWordMatch text x.brand = some x.firstIndex := by
  intro x hx
  have hx' : x ∈ brandFirstPositions text brands :=
    (sortByFirstIndex_perm _).mem_iff.mp hx
  rcases List.mem_filterMap.mp hx' with ⟨b, _, hb⟩
  cases hfm : firstWholeWordMatch text b with
  | none => rw [hfm] at hb; cases hb
  | some i =>
    rw [hfm] at hb
    simp only [Option.map_some'] at hb
    cases hb
    exact hfm

theorem brandFirstPositions_map (text : List Char) (brands : List (List Char)) :
    (brandFirstPositions text brands).map (·.brand)
      = brands.filter (fun b => (firstWholeWordMatch text b).isSome) := by
  induction brands with
  | nil => rfl
  | cons b bs ih =>
    unfold brandFirstPositions at ih ⊢
    rw [List.filterMap_cons, List.filter_cons]
    cases hfm : firstWholeWordMatch text b with
    | none => simpa using ih
    | some i =>
      simp only [Option.map_some', Option.isSome_some, List.map_cons]
      rw [ih]
      rfl

theorem posMapAux_isSome (b : List Char) :
    ∀ (l : List BrandPos) (i : Nat),
      (posMapAux i l b).isSome = true ↔ b ∈ l.map (·.brand) := by
  intro l
  induction l with
  | nil => intro i; simp [posMapAux]
  | cons e es ih =>
    intro i
    unfold posMapAux
    cases hrec : posMapAux (i + 1) es b with
    | some r =>
      simp only [Option.isSome_some, true_iff]
      have : b ∈ es.map (·.brand) := (ih (i + 1)).mp (by rw [hrec]; rfl)
      exact List.mem_cons_of_mem _ this
    | none =>
      by_cases heq : e.brand = b
      · rw [if_pos heq]
        simp only [Option.isSome_some, true_iff]
        exact heq ▸ List.mem_cons_self _ _
      · rw [if_neg heq]
        constructor
        · intro hcon; cases hcon
        · intro hmem
          exfalso
          rcases List.mem_cons.mp hmem with hb | hb
          · exact absurd hb.symm heq
          · have := (ih (i + 1)).mpr hb
            rw [hrec] at this
            cases this

theorem posMapAux_some (b : List Char) :
    ∀ (l : List BrandPos) (i p : Nat), posMapAux i l b = some p →
      i < p ∧ p ≤ i + l.length
        ∧ ∃ e, l[p - i - 1]? = some e ∧ e.brand = b := by
  intro l
  induction l with
  | nil => intro i p h; cases h
  | cons e es ih =>
    intro i p h
    unfold posMapAux at h
    cases hrec : posMapAux (i + 1) es b with
    | some r =>
      rw [hrec] at h
      cases h
      obtain ⟨h1, h2, e', he', hb⟩ := ih (i + 1) p hrec
      refine ⟨by omega, by simp; omega, e', ?_, hb⟩
      have hidx : p - i - 1 = (p - (i + 1) - 1) + 1 := by omega
      rw [hidx, List.getElem?_cons_succ]
      exact he'
    | none =>
      rw [hrec] at h
      by_cases heq : e.brand = b
      · rw [if_pos heq] at h
        cases h
        refine ⟨by omega, by simp, e, ?_, heq⟩
        have : i + 1 - i - 1 = 0 := by omega
        rw [this, List.getElem?_cons_zero]
      · rw [if_neg heq] at h
        cases h

theorem posMapAux_cons_tail (e : BrandPos) (es : List BrandPos) (i : Nat)
    (b : List Char) (hmem : b ∈ es.map (·.brand)) :
    posMapAux i (e :: es) b = posMapAux (i + 1) es b := by
  conv_lhs => unfold posMapAux
  cases hrec : posMapAux (i + 1) es b with
  | some r => rfl
  | none =>
    have := (posMapAux_isSome b es (i + 1)).mpr hmem
    rw [hrec] at this
    cases this

theorem posMapAux_filterMap (l : List BrandPos) :
    ∀ i : Nat, ((l.map (·.brand)).Nodup) →
      (l.map (·.brand)).filterMap (posMapAux i l) = List.range' (i + 1) l.length := by
  induction l with
  | nil => intro i _; rfl
  | cons e es ih =>
    intro i hnodup
    rw [List.map_cons] at hnodup ⊢
    rcases List.nodup_cons.mp hnodup with ⟨hnotmem, hnodup'⟩
    rw [List.filterMap_cons]
    have hhead : posMapAux i (e :: es) e.brand = some (i + 1) := by
      unfold posMapAux
      cases hrec : posMapAux (i + 1) es e.brand with
      | some r =>
        have := (posMapAux_isSome e.brand es (i + 1)).mp (by rw [hrec]; rfl)
        exact absurd this hnotmem
      | none => rw [if_pos rfl]
    rw [hhead]
    have htail : (es.map (·.brand)).filterMap (posMapAux i (e :: es))
        = (es.map (·.brand)).filterMap (posMapAux (i + 1) es) := by
      apply List.filterMap_congr
      intro b hb
      exact posMapAux_cons_tail e es i b hb
    rw [htail, ih (i + 1) hnodup']
    rfl

theorem mkMention_mentioned_iff (text : List Char) (posMap : List BrandPos)
    (brand : List Char) (m : Mention) (h : mkMention text posMap brand = .ok m) :
    m.mentioned = (firstWholeWordMatch text brand).isSome := by
  rcases matchAllIndices_head text brand with ⟨hnil, hnone⟩ | ⟨i, r, hcons, hsome⟩
  · unfold mkMention at h
    rw [hnil] at h
    cases h
    rw [hnone]
    rfl
  · unfold mkMention at h
    rw [hcons] at h
    dsimp only at h
    cases hrec : checkIfRecommended text brand with
    | error e => rw [hrec] at h; cases h
    | ok b =>
      rw [hrec] at h
      dsimp only at h
      cases h
      rw [hsome]
      rfl

theorem mkMention_position (text : List Char) (posMap : List BrandPos)
    (brand : List Char) (m : Mention) (h : mkMention text posMap brand = .ok m) :
    m.position = if (firstWholeWordMatch text brand).isSome = true then
      positionMapLookup posMap brand else none := by
  rcases matchAllIndices_head text brand with ⟨hnil, hnone⟩ | ⟨i, r, hcons, hsome⟩
  · unfold mkMention at h
    rw [hnil] at h
    cases h
    rw [hnone]
    rfl
  · unfold mkMention at h
    rw [hcons] at h
    dsimp only at h
    cases hrec : checkIfRecommended text brand with
    | error e => rw [hrec] at h; cases h
    | ok b =>
      rw [hrec] at h
      dsimp only at h
      cases h
      rw [hsome]
      rfl

theorem forall2_positions (text : List Char) (posMap : List BrandPos) :
    ∀ (bs : List (List Char)) (res : List Mention),
      List.Forall₂ (fun b m => mkMention text posMap b = .ok m) bs res →
      res.filterMap (·.position)
        = (bs.filter (fun b => (firstWholeWordMatch text b).isSome)).filterMap
            (positionMapLookup posMap) := by
  intro bs res hf
  induction hf with
  | nil => rfl
  | @cons b m bs' res' hbm _ ih =>
    rw [List.filterMap_cons, List.filter_cons]
    have hpos := mkMention_position _ _ _ _ hbm
    cases hfm : (firstWholeWordMatch text b).isSome with
    | false =>
      rw [hfm, if_neg (by simp)] at hpos
      rw [hpos]
      dsimp only
      rw [if_neg (by simp)]
      exact ih
    | true =>
      rw [hfm, if_pos rfl] at hpos
      rw [hpos, if_pos rfl, List.filterMap_cons]
      cases hl : positionMapLookup posMap b with
      | none => dsimp only; exact ih
      | some p => dsimp only; rw [ih]

theorem forall2_mentioned_count (text : List Char) (posMap : List BrandPos) :
    ∀ (bs : List (List Char)) (res : List Mention),
      List.Forall₂ (fun b m => mkMention text posMap b = .ok m) bs res →
      (res.filter (fun m => m.mentioned)).length
        = (bs.filter (fun b => (firstWholeWordMatch text b).isSome)).length := by
  intro bs res hf
  induction hf with
  | nil => rfl
  | @cons b m bs' res' hbm _ ih =>
    rw [List.filter_cons, List.filter_cons,
      mkMention_mentioned_iff _ _ _ _ hbm]
    cases hfm : (firstWholeWordMatch text b).isSome with
    | false => rw [if_neg (by simp), if_neg (by simp)]; exact ih
    | true => rw [if_pos rfl, if_pos rfl]; simp only [List.length_cons, ih]

/-- Claim C5 (amended): for brand lists with pairwise-distinct names,
whenever `extractMentions` returns, the non-null positions form a
permutation of `1..k` where `k` is the number of mentioned records (no
gaps, no duplicates), and ranks ascend with the character offset of each
brand's first whole-word match.  The claim as stated fails for duplicate
brand names (the `positionMap` object keys collide — see the
counterexample) and for calls that throw. -/
theorem brand_positions_perm_spec (text : List Char) (brands : List (List Char))
    (res : List Mention) (hnodup : brands.Nodup)
    (h : extractBrandMentions text brands = .ok res) :
    (res.filterMap (·.position)).Perm
      (List.range' 1 (res.filter (fun m => m.mentioned)).length)
    ∧ (∀ m1 ∈ res, ∀ m2 ∈ res, ∀ p1 p2 i1 i2,
        m1.position = some p1 → m2.position = some p2 → p1 ≤ p2 →
        firstWholeWordMatch text m1.brand = some i1 →
        firstWholeWordMatch text m2.brand = some i2 → i1 ≤ i2) := by
  have hf := extractGo_forall2 _ _ _ _ h
  have hLperm : ((sortedBrandPositions text brands).map (·.brand)).Perm
      (brands.filter (fun b => (firstWholeWordMatch text b).isSome)) := by
    have := (sortByFirstIndex_perm (brandFirstPositions text brands)).map (·.brand)
    rw [brandFirstPositions_map] at this
    exact this
  have hNodupL : ((sortedBrandPositions text brands).map (·.brand)).Nodup :=
    hLperm.nodup_iff.mpr (hnodup.filter _)
  constructor
  · have h1 := forall2_positions text (sortedBrandPositions text brands)
      brands res hf
    have hk := forall2_mentioned_count text (sortedBrandPositions text brands)
      brands res hf
    have h2 := posMapAux_filterMap (sortedBrandPositions text brands) 0 hNodupL
    have hlen : (brands.filter
        (fun b => (firstWholeWordMatch text b).isSome)).length
        = (sortedBrandPositions text brands).length := by
      rw [← hLperm.length_eq, List.length_map]
    rw [h1, hk, hlen]
    have hperm := hLperm.symm.filterMap
      (positionMapLookup (sortedBrandPositions text brands))
    rw [show positionMapLookup (sortedBrandPositions text brands)
      = posMapAux 0 (sortedBrandPositions text brands) from rfl] at hperm ⊢
    rw [h2] at hperm
    exact hperm
  · intro m1 hm1 m2 hm2 p1 p2 i1 i2 hp1 hp2 hple hi1 hi2
    rcases forall2_mem_mk _ _ _ _ hf m1 hm1 with ⟨b1, hb1⟩
    rcases forall2_mem_mk _ _ _ _ hf m2 hm2 with ⟨b2, hb2⟩
    have hbr1 := mkMention_brand _ _ _ _ hb1
    have hbr2 := mkMention_brand _ _ _ _ hb2
    subst hbr1
    subst hbr2
    have hlk1 : positionMapLookup (sortedBrandPositions text brands) m1.brand
        = some p1 := by
      have hpos := mkMention_position _ _ _ _ hb1
      rw [hp1] at hpos
      cases hfm : (firstWholeWordMatch text m1.brand).isSome with
      | false => rw [hfm, if_neg (by simp)] at hpos; cases hpos
      | true => rw [hfm, if_pos rfl] at hpos; exact hpos.symm
    have hlk2 : positionMapLookup (sortedBrandPositions text brands) m2.brand
        = some p2 := by
      have hpos := mkMention_position _ _ _ _ hb2
      rw [hp2] at hpos
      cases hfm : (firstWholeWordMatch text m2.brand).isSome with
      | false => rw [hfm, if_neg (by simp)] at hpos; cases hpos
      | true => rw [hfm, if_pos rfl] at hpos; exact hpos.symm
    obtain ⟨hpos1, hle1, e1, he1, heb1⟩ :=
      posMapAux_some m1.brand (sortedBrandPositions text brands) 0 p1 hlk1
    obtain ⟨hpos2, hle2, e2, he2, heb2⟩ :=
      posMapAux_some m2.brand (sortedBrandPositions text brands) 0 p2 hlk2
    obtain ⟨hlt1, hget1⟩ := List.getElem?_eq_some_iff.mp he1
    obtain ⟨hlt2, hget2⟩ := List.getElem?_eq_some_iff.mp he2
    have hfm1 : firstWholeWordMatch text e1.brand = some e1.firstIndex :=
      sortedBrandPositions_mem text brands e1
        (hget1 ▸ List.getElem_mem hlt1)
    have hfm2 : firstWholeWordMatch text e2.brand = some e2.firstIndex :=
      sortedBrandPositions_mem text brands e2
        (hget2 ▸ List.getElem_mem hlt2)
    rw [heb1] at hfm1
    rw [heb2] at hfm2
    rw [hfm1] at hi1
    rw [hfm2] at hi2
    cases hi1
    cases hi2
    rcases Nat.eq_or_lt_of_le hple with rfl | hlt
    · have : e1 = e2 := by
        rw [← hget1, ← hget2]
      rw [this]
    · have hsorted : (sortedBrandPositions text brands).Pairwise
          (fun a b => a.firstIndex ≤ b.firstIndex) :=
        sortByFirstIndex_sorted (brandFirstPositions text brands)
      have hpw := List.pairwise_iff_getElem.mp hsorted
        (p1 - 0 - 1) (p2 - 0 - 1) hlt1 hlt2 (by omega)
      rw [hget1, hget2] at hpw
      exact hpw

theorem extract_pair_eval (text b1 b2 : List Char) (r1 r2 : Mention)
    (h1 : mkMention text (sortedBrandPositions text [b1, b2]) b1 = .ok r1)
    (h2 : mkMention text (sortedBrandPositions text [b1, b2]) b2 = .ok r2) :
    extractBrandMentions text [b1, b2] = .ok [r1, r2] := by
  unfold extractBrandMentions extractGo
  rw [h1]
  dsimp only
  unfold extractGo
  rw [h2]
  rfl

/-- Witness for `brand_positions_perm_spec`: for the distinct brands `a`
and `b` in `b and a`, the assigned positions are a permutation of `1..2`. -/
theorem brand_positions_perm_spec_witness :
    ∃ res, extractBrandMentions "b and a".toList ["a".toList, "b".toList]
        = .ok res
      ∧ (res.filterMap (·.position)).Perm
          (List.range' 1 (res.filter (fun m => m.mentioned)).length) := by
  have hmk1 := mkMention_eval "b and a".toList
    (sortedBrandPositions "b and a".toList ["a".toList, "b".toList])
    "a".toList 6 [] ⟨.neutral, 0⟩ false (by decide)
    (analyzeSentiment_no_match _ _ (by decide) (by decide)) (by rfl)
  have hmk2 := mkMention_eval "b and a".toList
    (sortedBrandPositions "b and a".toList ["a".toList, "b".toList])
    "b".toList 0 [] ⟨.neutral, 0⟩ false (by decide)
    (analyzeSentiment_no_match _ _ (by decide) (by decide)) (by rfl)
  have hok := extract_pair_eval "b and a".toList "a".toList "b".toList _ _
    hmk1 hmk2
  exact ⟨_, hok, (brand_positions_perm_spec "b and a".toList
    ["a".toList, "b".toList] _ (by decide) hok).1⟩

/-- Counterexample to claim C5 as stated: with the duplicated brand list
`["a", "a"]` over the text `a`, both records are mentioned (k = 2) but both
receive position 2 — the `positionMap` object keys collide, so the non-null
positions `[2, 2]` are not a permutation of `1..2`. -/
theorem brand_positions_perm_cex :
    ∃ res, extractBrandMentions "a".toList ["a".toList, "a".toList] = .ok res
      ∧ (res.filter (fun m => m.mentioned)).length = 2
      ∧ res.filterMap (·.position) = [2, 2]
      ∧ ¬ (res.filterMap (·.position)).Perm (List.range' 1 2) := by
  have hmk := mkMention_eval "a".toList
    (sortedBrandPositions "a".toList ["a".toList, "a".toList])
    "a".toList 0 [] ⟨.neutral, 0⟩ false (by decide)
    (analyzeSentiment_no_match _ _ (by decide) (by decide)) (by rfl)
  have hok := extract_pair_eval "a".toList "a".toList "a".toList _ _ hmk hmk
  exact ⟨_, hok, by decide, by decide, by decide⟩

end AIVis
